import Mathlib

set_option maxRecDepth 40000

/-!
# Verification of the SIMD bit-vector container (`bitvec_simd`, `src/lib.rs`)

Shallow embedding of the bit-vector data structure at its default
instantiation `BitVec = BitVecSimd<u64x4, 4>` (lane width 64, 4 lanes per
block, 256-bit blocks).  Lanes are modelled as `Nat` with wrap-around
arithmetic taken explicitly modulo `2 ^ 64`; a block is its lane array
(`to_array` form), i.e. a `List Nat` of length 4; the container is a list of
blocks together with the logical bit count `nbits`.  Rust operations that
panic are modelled with `Option`; `assert!`s that hold under the data-model
invariants are recorded as hypotheses of the theorems instead.
-/

namespace BitVecSimd

/-- `B::ELEMENT_BIT_WIDTH` for the default shape (`u64` lanes). -/
def elemWidth : Nat := 64

/-- `B::LANES` for the default shape (`u64x4`). -/
def laneCount : Nat := 4

/-- `B::MAX_ELEMENT` (`u64::MAX`). -/
def maxElem : Nat := 2 ^ 64 - 1

/-- `u64::wrapping_shl`: shift amount is taken mod the bit width and the
result is truncated to 64 bits. -/
def wshl (x s : Nat) : Nat := (x <<< (s % 64)) % 2 ^ 64

/-- `u64::wrapping_shr`: shift amount is taken mod the bit width. -/
def wshr (x s : Nat) : Nat := x >>> (s % 64)

/-- Bitwise `!` on a `u64` value. -/
def not64 (x : Nat) : Nat := x ^^^ maxElem

/-- `BitBlockElement::clear_high_bits`: `self.wrapping_shl(rhs).wrapping_shr(rhs)`. -/
def clear_high_bits (x r : Nat) : Nat := wshr (wshl x r) r

/-- `BitBlockElement::clear_low_bits`: `self.wrapping_shr(rhs).wrapping_shl(rhs)`. -/
def clear_low_bits (x r : Nat) : Nat := wshl (wshr x r) r

/-- Fuel-driven population count helper (structural recursion so that the
kernel can evaluate it). -/
def popcntAux : Nat → Nat → Nat
  | 0, _ => 0
  | fuel + 1, n => if n = 0 then 0 else n % 2 + popcntAux fuel (n / 2)

/-- `u64::count_ones` (population count), modelled on `Nat`. -/
def popcnt (n : Nat) : Nat := popcntAux n n

/-- Fuel-driven bit-length helper (structural recursion). -/
def bitLenAux : Nat → Nat → Nat
  | 0, _ => 0
  | fuel + 1, n => if n = 0 then 0 else bitLenAux fuel (n / 2) + 1

/-- Number of bits needed to write `n` (position of highest set bit + 1). -/
def bitLen (n : Nat) : Nat := bitLenAux n n

/-- `u64::leading_zeros`, for a lane value `< 2 ^ 64`. -/
def lzcnt64 (y : Nat) : Nat := 64 - bitLen y

/-! ## List helpers

`for a in arr.iter_mut().take(m).skip(k) { *a = v }` loops are modelled by
index-tracking recursions; `Vec::resize` by `listResize`. -/
/-- Overwrite with `0` every entry whose index is `≥ k`
(`iter_mut().take(LANES).skip(k)`, where the list has length `LANES`). -/
def zerosFrom (k : Nat) : List Nat → List Nat
  | [] => []
  | a :: as => (if k = 0 then 0 else a) :: zerosFrom (k - 1) as

/-- Overwrite with `MAX_ELEMENT` every entry whose index `j` satisfies
`k ≤ j < m` (`iter_mut().take(m).skip(k)`). -/
def fillRange (k m : Nat) : List Nat → List Nat
  | [] => []
  | a :: as => (if k = 0 ∧ 0 < m then maxElem else a) :: fillRange (k - 1) (m - 1) as

/-- `Vec::resize(n, v)`: truncate or pad with copies of `v`. -/
def listResize {α : Type} (l : List α) (n : Nat) (v : α) : List α :=
  if n ≤ l.length then l.take n else l ++ List.replicate (n - l.length) v

/-! ## The container and its operations (`BitVecSimd<u64x4, 4>`) -/
/-- `B::ZERO.to_array()`. -/
def blockZero : List Nat := List.replicate 4 0

/-- `B::MAX.to_array()`. -/
def blockMax : List Nat := List.replicate 4 maxElem

end BitVecSimd

/-- The container: `storage: Vec<B>` (each block in its `to_array` form) and
`nbits: usize`. -/
structure BitVecSimd where
  storage : List (List Nat)
  nbits : Nat

namespace BitVecSimd

/-- `bit_to_len`, first component: number of completely used blocks. -/
def btlBlock (nbits : Nat) : Nat := nbits / 256

/-- `bit_to_len`, second component: `(nbits % BIT_WIDTH) / ELEMENT_BIT_WIDTH`. -/
def btlLane (nbits : Nat) : Nat := nbits % 256 / 64

/-- `bit_to_len`, third component: `nbits % ELEMENT_BIT_WIDTH`. -/
def btlBit (nbits : Nat) : Nat := nbits % 64

/-- `set_bit(flag, bytes, offset)`. -/
def set_bit (flag : Bool) (bytes offset : Nat) : Nat :=
  match flag with
  | true => bytes ||| wshl 1 offset
  | false => bytes &&& not64 (wshl 1 offset)

/-- `BitVecSimd::zeros(nbits)`. -/
def zeros (nbits : Nat) : BitVecSimd :=
  ⟨List.replicate ((nbits + 256 - 1) / 256) blockZero, nbits⟩

/-- `BitVecSimd::ones(nbits)`. -/
def ones (nbits : Nat) : BitVecSimd :=
  let i := btlBlock nbits
  let bytes := btlLane nbits
  let bits := btlBit nbits
  let storage := List.replicate i blockMax
  let storage :=
    if bytes > 0 ∨ bits > 0 then
      storage ++ [zerosFrom (bytes + 1)
        (blockMax.set bytes (clear_high_bits maxElem (64 - bits)))]
    else storage
  ⟨storage, nbits⟩

/-- `BitVecSimd::set(index, flag)` (in-place in Rust; functional here).
When `index ≥ nbits` the storage is extended with `B::ZERO` blocks and
`nbits` becomes `index + 1`; then the addressed lane bit is written. -/
def set (bv : BitVecSimd) (index : Nat) (flag : Bool) : BitVecSimd :=
  let bv :=
    if bv.nbits ≤ index then
      let i := btlBlock (index + 1)
      let bytes := btlLane (index + 1)
      let bits := btlBit (index + 1)
      let new_len := if bytes > 0 ∨ bits > 0 then i + 1 else i
      (⟨bv.storage ++ List.replicate (new_len - bv.storage.length) blockZero,
        index + 1⟩ : BitVecSimd)
    else bv
  let i := btlBlock index
  let bytes := btlLane index
  let bits := btlBit index
  let arr := bv.storage.getD i blockZero
  ⟨bv.storage.set i (arr.set bytes (set_bit flag (arr.getD bytes 0) bits)),
    bv.nbits⟩

/-- The storage-growing step of `set` (the `if self.nbits <= index` branch),
as a standalone value for the proofs. -/
def grownFor (bv : BitVecSimd) (index : Nat) : BitVecSimd :=
  ⟨bv.storage ++ List.replicate
      ((if btlLane (index + 1) > 0 ∨ btlBit (index + 1) > 0 then btlBlock (index + 1) + 1
        else btlBlock (index + 1)) - bv.storage.length) blockZero, index + 1⟩

/-- `BitVecSimd::from_slice(slice)`: `zeros(slice.len())`, then `set(i, true)`
for each listed index. -/
def from_slice (slice : List Nat) : BitVecSimd :=
  slice.foldl (fun bv i => bv.set i true) (zeros slice.length)

/-- `BitVecSimd::get(index)`. -/
def get (bv : BitVecSimd) (index : Nat) : Option Bool :=
  if bv.nbits ≤ index then none
  else
    some (decide ((bv.storage.getD (btlBlock index) blockZero).getD (btlLane index) 0
      &&& wshl 1 (btlBit index) ≠ 0))

/-- `BitVecSimd::get_unchecked(index)`; the out-of-bounds panic is modelled
as `none`. -/
def get_unchecked (bv : BitVecSimd) (index : Nat) : Option Bool :=
  if bv.nbits ≤ index then none
  else
    some (decide ((bv.storage.getD (btlBlock index) blockZero).getD (btlLane index) 0
      &&& wshl 1 (btlBit index) ≠ 0))

/-- `clear_arr_high_bits(arr, bytes, bits)`. -/
def clear_arr_high_bits (arr : List Nat) (bytes bits : Nat) : List Nat :=
  if bits > 0 then
    zerosFrom (bytes + 1) (arr.set bytes (clear_high_bits (arr.getD bytes 0) (64 - bits)))
  else
    zerosFrom bytes arr

/-- `fill_arr_high_bits(arr, bytes, bits, bytes_max)`. -/
def fill_arr_high_bits (arr : List Nat) (bytes bits bytes_max : Nat) : List Nat :=
  if bits > 0 then
    fillRange (bytes + 1) bytes_max
      (arr.set bytes ((arr.getD bytes 0) ||| clear_low_bits maxElem bits))
  else
    fillRange bytes bytes_max arr

/-- The method `clear_high_bits(&mut self, i, bytes, bits)` acting on the
storage (named `_block` here to keep it apart from the lane-level helper). -/
def clear_high_block (s : List (List Nat)) (i bytes bits : Nat) : List (List Nat) :=
  if bytes > 0 ∨ bits > 0 then
    s.set i (clear_arr_high_bits (s.getD i blockZero) bytes bits)
  else s

/-- The method `fill_high_bits(&mut self, i, bytes, bits, bytes_max)`. -/
def fill_high_block (s : List (List Nat)) (i bytes bits bytes_max : Nat) :
    List (List Nat) :=
  if bytes > 0 ∨ bits > 0 then
    s.set i (fill_arr_high_bits (s.getD i blockZero) bytes bits bytes_max)
  else s

/-- The array surgery inside `fix_high_bits` (which acts on `storage[i]`).
The `debug_assert!`s hold under the invariants and are recorded as theorem
hypotheses. -/
def fix_arr_high_bits (arr : List Nat) (old_bytes old_bits bytes bits : Nat) :
    List Nat :=
  let arr :=
    if old_bytes < bytes then
      fill_arr_high_bits arr old_bytes old_bits (if bits > 0 then bytes + 1 else bytes)
    else if bits > old_bits then
      arr.set bytes ((arr.getD bytes 0) ||| clear_low_bits maxElem old_bits)
    else arr
  clear_arr_high_bits arr bytes bits

/-- `BitVecSimd::resize(nbits, value)`. -/
def resize (bv : BitVecSimd) (nbits : Nat) (value : Bool) : BitVecSimd :=
  let i := btlBlock nbits
  let bytes := btlLane nbits
  let bits := btlBit nbits
  let storage := listResize bv.storage (if bytes > 0 ∨ bits > 0 then i + 1 else i)
    (if value then blockMax else blockZero)
  let storage :=
    if nbits < bv.nbits then
      clear_high_block storage i bytes bits
    else if value then
      let old_i := btlBlock bv.nbits
      let old_bytes := btlLane bv.nbits
      let old_bits := btlBit bv.nbits
      if old_i < i then
        clear_high_block (fill_high_block storage old_i old_bytes old_bits 4) i bytes bits
      else if bytes > 0 ∨ bits > 0 then
        storage.set i (fix_arr_high_bits (storage.getD i blockZero) old_bytes old_bits bytes bits)
      else storage
    else storage
  ⟨storage, nbits⟩

/-- `BitVecSimd::shrink_to(nbits)`: panics (`none`) unless `nbits` is strictly
smaller than the current length. -/
def shrink_to (bv : BitVecSimd) (nbits : Nat) : Option BitVecSimd :=
  if bv.nbits ≤ nbits then none else some (bv.resize nbits false)

/-- A whole-block lanewise `&` (`impl BitAnd for u64x4`). -/
def blockAnd (a b : List Nat) : List Nat := List.zipWith (· &&& ·) a b

/-- A whole-block lanewise `|`. -/
def blockOr (a b : List Nat) : List Nat := List.zipWith (· ||| ·) a b

/-- A whole-block lanewise `^`. -/
def blockXor (a b : List Nat) : List Nat := List.zipWith (· ^^^ ·) a b

/-- `BitVecSimd::and` (also `and_cloned` / `and_inplace`, which compute the
same storage).  The `assert_eq!(self.nbits, other.nbits)` holds under the
theorems' hypotheses. -/
def and (a b : BitVecSimd) : BitVecSimd :=
  ⟨List.zipWith blockAnd a.storage b.storage, a.nbits⟩

/-- `BitVecSimd::or` (also `or_cloned` / `or_inplace`). -/
def or (a b : BitVecSimd) : BitVecSimd :=
  ⟨List.zipWith blockOr a.storage b.storage, a.nbits⟩

/-- `BitVecSimd::xor` (also `xor_cloned` / `xor_inplace`). -/
def xor (a b : BitVecSimd) : BitVecSimd :=
  ⟨List.zipWith blockXor a.storage b.storage, a.nbits⟩

/-- `BitVecSimd::or_inplace_mismatched_len`: `zip` only reaches the common
block range; the rest of `self`'s storage — and `self.nbits` — are untouched. -/
def or_inplace_mismatched_len (a b : BitVecSimd) : BitVecSimd :=
  ⟨List.zipWith blockOr a.storage b.storage ++ a.storage.drop b.storage.length,
    a.nbits⟩

/-- `BitVecSimd::inverse` (also `Not::not`). -/
def inverse (bv : BitVecSimd) : BitVecSimd :=
  let i := btlBlock bv.nbits
  let bytes := btlLane bv.nbits
  let bits := btlBit bv.nbits
  let storage := bv.storage.map (fun b => b.map not64)
  let storage :=
    if bytes > 0 ∨ bits > 0 then
      let arr := storage.getD i blockZero
      storage.set i (zerosFrom (bytes + 1)
        (arr.set bytes (clear_high_bits (arr.getD bytes 0) (64 - bits))))
    else storage
  ⟨storage, bv.nbits⟩

/-- `BitVecSimd::difference`: `self.and(other.not())`. -/
def difference (a b : BitVecSimd) : BitVecSimd := a.and b.inverse

/-- `BitVecSimd::count_ones`. -/
def count_ones (bv : BitVecSimd) : Nat :=
  (bv.storage.map (fun x => (x.map popcnt).sum)).sum

/-- `BitVecSimd::leading_zeros`.  The `skip_while` iterators with their
side-effecting counters are modelled by `dropWhile` together with the length
of the corresponding `takeWhile` prefix (exactly the number of elements the
Rust closure counted). -/
def leading_zeros (bv : BitVecSimd) : Nat :=
  let rev := bv.storage.reverse
  let zeroBlocks := (rev.takeWhile (fun x => x == blockZero)).length
  match rev.dropWhile (fun x => x == blockZero) with
  | [] => bv.nbits
  | x :: _ =>
    let arrRev := x.reverse
    let zeroLanes := (arrRev.takeWhile (fun y => y == 0)).length
    let y := (arrRev.dropWhile (fun y => y == 0)).headD 0
    let raw := (4 * zeroBlocks + zeroLanes) * 64 + lzcnt64 y
    let extra := if bv.nbits % 256 > 0 then 256 - bv.nbits % 256 else 0
    raw - extra

/-- The `serialize` helper behind `#[cfg(feature = "use_serde")]`: the flat
lane sequence written for a storage vector.  Note the `take_while` over the
last block's lanes. -/
def serializeLanes (x : List (List Nat)) : List Nat :=
  let last_count :=
    match x.getLast? with
    | some last => (last.takeWhile (fun e => e != 0)).length
    | none => 0
  let prefix_len := max x.length 1 - 1
  (x.take prefix_len).flatten ++
    (match x.getLast? with
     | some last => last.take last_count
     | none => [])

/-- The `deserialize` helper: regroup the flat lane sequence into blocks of
4 lanes, zero-padding the final chunk. -/
def deserializeBlocks (s : List Nat) : List (List Nat) :=
  let len := (s.length + (4 - 1)) / 4
  (List.range len).map (fun i =>
    let k := i * 4
    if k + 4 < len * 4 then (s.drop k).take 4
    else (List.range 4).map (fun j => if k + j < s.length then s.getD (k + j) 0 else 0))

/-! ## Observable bit semantics and the data-model invariants -/
/-- The lane holding bit position grouping `(b, l)` of the storage
(out-of-range reads default to zero, matching absent storage). -/
def laneAt (bv : BitVecSimd) (b l : Nat) : Nat :=
  (bv.storage.getD b blockZero).getD l 0

/-- The storage bit at logical position `p`. -/
def sbit (bv : BitVecSimd) (p : Nat) : Bool :=
  (laneAt bv (p / 256) (p % 256 / 64)).testBit (p % 64)

/-- Structural well-formedness: the storage-length invariant
`storage.len() == ceil(nbits / 256)` together with the type-level facts the
Rust representation gives for free (each block has exactly 4 lanes, each lane
is a 64-bit value). -/
def WF (bv : BitVecSimd) : Prop :=
  bv.storage.length = (bv.nbits + 256 - 1) / 256 ∧
    ∀ b ∈ bv.storage, b.length = 4 ∧ ∀ x ∈ b, x < 2 ^ 64

instance decWF (bv : BitVecSimd) : Decidable (WF bv) := by
  unfold WF
  exact inferInstance

/-- The tail-zero invariant: every storage bit at position `≥ nbits` is zero. -/
def TailZero (bv : BitVecSimd) : Prop :=
  ∀ p, bv.nbits ≤ p → sbit bv p = false

/-- The data-model invariants of §3 of the spec. -/
def Inv (bv : BitVecSimd) : Prop := WF bv ∧ TailZero bv

/-! ## Lane-level bit lemmas -/
theorem testBit_wshl (x s j : Nat) :
    (wshl x s).testBit j =
      (decide (j < 64) && (decide (j ≥ s % 64) && x.testBit (j - s % 64))) := by
  simp only [wshl, Nat.testBit_mod_two_pow, Nat.testBit_shiftLeft]

theorem testBit_wshr (x s j : Nat) :
    (wshr x s).testBit j = x.testBit (s % 64 + j) := by
  simp only [wshr, Nat.testBit_shiftRight]

theorem testBit_maxElem (j : Nat) : maxElem.testBit j = decide (j < 64) := by
  simp only [maxElem, Nat.testBit_two_pow_sub_one]

theorem testBit_not64 (x j : Nat) :
    (not64 x).testBit j = (Bool.xor (x.testBit j) (decide (j < 64))) := by
  simp only [not64, Nat.testBit_xor, testBit_maxElem]

theorem testBit_clear_high_bits (x r k : Nat) :
    (clear_high_bits x r).testBit k = (decide (r % 64 + k < 64) && x.testBit k) := by
  simp only [clear_high_bits, testBit_wshr, testBit_wshl, ge_iff_le]
  have h1 : decide (r % 64 ≤ r % 64 + k) = true := by simp
  have h2 : r % 64 + k - r % 64 = k := by omega
  rw [h1, h2, Bool.true_and]

theorem testBit_clear_low_bits (x r k : Nat) :
    (clear_low_bits x r).testBit k =
      (decide (k < 64) && (decide (r % 64 ≤ k) && x.testBit k)) := by
  simp only [clear_low_bits, testBit_wshl, testBit_wshr, ge_iff_le]
  by_cases h : r % 64 ≤ k
  · have h2 : r % 64 + (k - r % 64) = k := by omega
    simp [h, h2]
  · simp [h]

theorem wshl_one_eq (s : Nat) : wshl 1 s = 2 ^ (s % 64) := by
  rw [wshl, Nat.one_shiftLeft]
  exact Nat.mod_eq_of_lt (Nat.pow_lt_pow_of_lt (by norm_num) (Nat.mod_lt _ (by norm_num)))

theorem testBit_wshl_one (s j : Nat) :
    (wshl 1 s).testBit j = decide (j = s % 64) := by
  rw [wshl_one_eq, Nat.testBit_two_pow]
  by_cases h : j = s % 64 <;> simp [h, eq_comm]

theorem and_wshl_one_ne_zero (x s : Nat) :
    decide (x &&& wshl 1 s ≠ 0) = x.testBit (s % 64) := by
  rw [wshl_one_eq, Nat.and_two_pow]
  cases h : x.testBit (s % 64)
  · simp
  · have : (2 : Nat) ^ (s % 64) ≠ 0 := Nat.pos_iff_ne_zero.mp (Nat.pos_pow_of_pos _ (by norm_num))
    simp [this]

theorem lt_two_pow_64_of_testBit (x : Nat) (h : ∀ j, 64 ≤ j → x.testBit j = false) :
    x < 2 ^ 64 :=
  Nat.lt_pow_two_of_testBit x fun i hi => h i hi

theorem length_zerosFrom (k : Nat) (l : List Nat) :
    (zerosFrom k l).length = l.length := by
  induction l generalizing k with
  | nil => rfl
  | cons a as ih => simp [zerosFrom, ih]

theorem getD_zerosFrom (k : Nat) (l : List Nat) (j : Nat) :
    (zerosFrom k l).getD j 0 = if k ≤ j ∧ j < l.length then 0 else l.getD j 0 := by
  induction l generalizing k j with
  | nil => simp [zerosFrom]
  | cons a as ih =>
    cases j with
    | zero =>
      cases k with
      | zero => simp [zerosFrom]
      | succ k => simp [zerosFrom]
    | succ j =>
      simp only [zerosFrom, List.getD_cons_succ, ih, List.length_cons]
      by_cases h : k - 1 ≤ j ∧ j < as.length
      · have h2 : k ≤ j + 1 ∧ j + 1 < as.length + 1 := by omega
        simp [h, h2]
      · have h2 : ¬(k ≤ j + 1 ∧ j + 1 < as.length + 1) := by omega
        simp [h, h2]

theorem length_fillRange (k m : Nat) (l : List Nat) :
    (fillRange k m l).length = l.length := by
  induction l generalizing k m with
  | nil => rfl
  | cons a as ih => simp [fillRange, ih]

theorem getD_fillRange (k m : Nat) (l : List Nat) (j : Nat) :
    (fillRange k m l).getD j 0 =
      if k ≤ j ∧ j < m ∧ j < l.length then maxElem else l.getD j 0 := by
  induction l generalizing k m j with
  | nil => simp [fillRange]
  | cons a as ih =>
    cases j with
    | zero =>
      by_cases h : k = 0 ∧ 0 < m
      · have h2 : k ≤ 0 ∧ 0 < m ∧ 0 < as.length + 1 := by omega
        simp [fillRange, h, h2]
      · have h2 : ¬(k ≤ 0 ∧ 0 < m ∧ 0 < as.length + 1) := by omega
        simp [fillRange, h, h2]
    | succ j =>
      simp only [fillRange, List.getD_cons_succ, ih, List.length_cons]
      by_cases h : k - 1 ≤ j ∧ j < m - 1 ∧ j < as.length
      · rw [if_pos h, if_pos (by omega)]
      · rw [if_neg h, if_neg (by omega)]

theorem getD_set {α : Type} (l : List α) (i j : Nat) (v : α) (d : α) :
    (l.set i v).getD j d = if i = j ∧ j < l.length then v else l.getD j d := by
  induction l generalizing i j with
  | nil => simp [List.set]
  | cons a as ih =>
    cases i with
    | zero =>
      cases j with
      | zero => simp
      | succ j => simp
    | succ i =>
      cases j with
      | zero => simp
      | succ j =>
        simp only [List.set, List.getD_cons_succ, ih, List.length_cons]
        by_cases h : i = j ∧ j < as.length
        · have h2 : i + 1 = j + 1 ∧ j + 1 < as.length + 1 := by omega
          simp [h, h2]
        · have h2 : ¬(i + 1 = j + 1 ∧ j + 1 < as.length + 1) := by omega
          simp [h, h2]

theorem getD_append_default {α : Type} (l : List α) (m : Nat) (d : α) (j : Nat) :
    (l ++ List.replicate m d).getD j d = l.getD j d := by
  induction l generalizing j with
  | nil =>
    simp only [List.nil_append, List.getD_nil]
    induction m generalizing j with
    | zero => simp
    | succ m ih =>
      cases j with
      | zero => simp [List.replicate]
      | succ j =>
        rw [List.replicate, List.getD_cons_succ]
        exact ih j
  | cons a as ih =>
    cases j with
    | zero => simp
    | succ j => simpa using ih j

theorem length_listResize {α : Type} (l : List α) (n : Nat) (v : α) :
    (listResize l n v).length = n := by
  unfold listResize
  by_cases h : n ≤ l.length
  · simp [h]
  · simp [h]
    omega

theorem getD_replicate {α : Type} (m j : Nat) (v d : α) :
    (List.replicate m v).getD j d = if j < m then v else d := by
  induction m generalizing j with
  | zero => simp
  | succ m ih =>
    cases j with
    | zero => simp [List.replicate]
    | succ j =>
      simp only [List.replicate, List.getD_cons_succ, ih]
      by_cases h : j < m
      · simp [h, Nat.succ_lt_succ h]
      · have h2 : ¬(j + 1 < m + 1) := by omega
        simp [h, h2]

theorem getD_take {α : Type} (l : List α) (n j : Nat) (d : α) (h : j < n) :
    (l.take n).getD j d = l.getD j d := by
  induction l generalizing n j with
  | nil => simp
  | cons a as ih =>
    cases n with
    | zero => omega
    | succ n =>
      cases j with
      | zero => simp
      | succ j =>
        simp only [List.take, List.getD_cons_succ]
        exact ih n j (by omega)

theorem getD_append_left {α : Type} (l l' : List α) (j : Nat) (d : α)
    (h : j < l.length) : (l ++ l').getD j d = l.getD j d := by
  induction l generalizing j with
  | nil => simp at h
  | cons a as ih =>
    cases j with
    | zero => simp
    | succ j =>
      simp only [List.cons_append, List.getD_cons_succ]
      exact ih j (by simpa using Nat.lt_of_succ_lt_succ h)

theorem getD_listResize {α : Type} (l : List α) (n : Nat) (v : α) (d : α) (j : Nat) :
    (listResize l n v).getD j d =
      if j < n then (if j < l.length then l.getD j d else v) else d := by
  unfold listResize
  by_cases h : n ≤ l.length
  · simp only [h, if_pos]
    by_cases hj : j < n
    · rw [getD_take l n j d hj]
      have hjl : j < l.length := by omega
      simp [hj, hjl]
    · have hd : (l.take n).getD j d = d := by
        rw [List.getD_eq_getElem?_getD, List.getElem?_eq_none (by simp; omega)]
        rfl
      rw [hd, if_neg hj]
  · simp only [h, if_neg, not_false_iff]
    by_cases hj : j < l.length
    · rw [getD_append_left _ _ _ _ hj]
      have hjn : j < n := by omega
      simp [hjn, hj]
    · by_cases hjn : j < n
      · have hr : (l ++ List.replicate (n - l.length) v).getD j d
            = (List.replicate (n - l.length) v).getD (j - l.length) d := by
          rw [List.getD_eq_getElem?_getD, List.getElem?_append_right (by omega),
            ← List.getD_eq_getElem?_getD]
        rw [hr, getD_replicate]
        have hjd : j - l.length < n - l.length := by omega
        simp [hjn, hj, hjd]
      · have hr : (l ++ List.replicate (n - l.length) v).getD j d = d := by
          rw [List.getD_eq_getElem?_getD, List.getElem?_eq_none (by simp; omega)]
          rfl
        rw [hr, if_neg hjn]

theorem getD_map_not64 (l : List Nat) (j : Nat) (h : j < l.length) :
    (l.map not64).getD j 0 = not64 (l.getD j 0) := by
  induction l generalizing j with
  | nil => simp at h
  | cons a as ih =>
    cases j with
    | zero => simp
    | succ j =>
      simp only [List.map, List.getD_cons_succ]
      exact ih j (by simpa using Nat.lt_of_succ_lt_succ h)

theorem length_zipWith {α : Type} (f : α → α → α) (l l' : List α) :
    (List.zipWith f l l').length = min l.length l'.length := by
  simp

theorem getD_zipWith {α : Type} (f : α → α → α) (d : α) (l l' : List α) (j : Nat)
    (hf : f d d = d) (hlen : l.length = l'.length) :
    (List.zipWith f l l').getD j d = f (l.getD j d) (l'.getD j d) := by
  induction l generalizing l' j with
  | nil =>
    cases l' with
    | nil => simp [hf]
    | cons b bs => simp at hlen
  | cons a as ih =>
    cases l' with
    | nil => simp at hlen
    | cons b bs =>
      cases j with
      | zero => simp
      | succ j =>
        simp only [List.zipWith, List.getD_cons_succ]
        exact ih bs j (by simpa using hlen)

theorem getD_map_block (g : List Nat → List Nat) (s : List (List Nat)) (b : Nat)
    (h : b < s.length) : (s.map g).getD b blockZero = g (s.getD b blockZero) := by
  induction s generalizing b with
  | nil => simp at h
  | cons a as ih =>
    cases b with
    | zero => simp
    | succ b =>
      simp only [List.map, List.getD_cons_succ]
      exact ih b (by simpa using Nat.lt_of_succ_lt_succ h)

/-! ## Semantic glue -/
theorem getD_blockZero (l : Nat) : blockZero.getD l 0 = 0 := by
  rw [blockZero, getD_replicate]
  split <;> rfl

theorem getD_blockMax (l : Nat) :
    blockMax.getD l 0 = if l < 4 then maxElem else 0 := by
  rw [blockMax, getD_replicate]

theorem laneAt_of_ge (bv : BitVecSimd) (b l : Nat) (h : bv.storage.length ≤ b) :
    laneAt bv b l = 0 := by
  unfold laneAt
  have h2 : bv.storage.getD b blockZero = blockZero := by
    rw [List.getD_eq_getElem?_getD, List.getElem?_eq_none h]
    rfl
  rw [h2]
  exact getD_blockZero l

theorem storage_len_formula (n : Nat) :
    (if btlLane n > 0 ∨ btlBit n > 0 then btlBlock n + 1 else btlBlock n) =
      (n + 256 - 1) / 256 := by
  unfold btlBlock btlLane btlBit
  by_cases h : n % 256 = 0
  · rw [if_neg (by omega)]
    omega
  · rw [if_pos (by omega)]
    omega

theorem get_eq (bv : BitVecSimd) (p : Nat) :
    get bv p = if p < bv.nbits then some (sbit bv p) else none := by
  unfold get sbit laneAt btlBlock btlLane btlBit
  by_cases h : bv.nbits ≤ p
  · rw [if_pos h, if_neg (by omega)]
  · rw [if_neg h, if_pos (by omega), and_wshl_one_ne_zero]
    have hmm : p % 64 % 64 = p % 64 := by omega
    rw [hmm]

theorem get_unchecked_eq_get (bv : BitVecSimd) (p : Nat) :
    get_unchecked bv p = get bv p := rfl

theorem sbit_decomp (bv : BitVecSimd) (b l k : Nat) (hl : l < 4) (hk : k < 64) :
    sbit bv (256 * b + 64 * l + k) = (laneAt bv b l).testBit k := by
  unfold sbit
  have h1 : (256 * b + 64 * l + k) / 256 = b := by omega
  have h2 : (256 * b + 64 * l + k) % 256 / 64 = l := by omega
  have h3 : (256 * b + 64 * l + k) % 64 = k := by omega
  rw [h1, h2, h3]

theorem getD_mem_or {α : Type} (l : List α) (j : Nat) (d : α) :
    l.getD j d ∈ l ∨ l.getD j d = d := by
  induction l generalizing j with
  | nil =>
    right
    simp
  | cons a as ih =>
    cases j with
    | zero =>
      left
      simp
    | succ j =>
      rw [List.getD_cons_succ]
      rcases ih j with h | h
      · left
        exact List.mem_cons_of_mem a h
      · right
        exact h

theorem block_length_of_WF (bv : BitVecSimd) (hwf : WF bv) (b : Nat) :
    (bv.storage.getD b blockZero).length = 4 := by
  rcases getD_mem_or bv.storage b blockZero with h | h
  · exact (hwf.2 _ h).1
  · rw [h, blockZero]
    simp

theorem laneAt_lt_of_WF (bv : BitVecSimd) (hwf : WF bv) (b l : Nat) :
    laneAt bv b l < 2 ^ 64 := by
  unfold laneAt
  rcases getD_mem_or bv.storage b blockZero with h | h
  · rcases getD_mem_or (bv.storage.getD b blockZero) l 0 with h2 | h2
    · exact (hwf.2 _ h).2 _ h2
    · rw [h2]
      exact Nat.pos_pow_of_pos _ (by norm_num)
  · rw [h, getD_blockZero]
    exact Nat.pos_pow_of_pos _ (by norm_num)

/-- The tail-zero invariant only has content below the storage's bit
capacity; beyond it every read defaults to zero.  This gives a decidable
reformulation used to establish `TailZero` on concrete vectors. -/
theorem tailZero_iff (bv : BitVecSimd) :
    TailZero bv ↔
      ∀ p, p < bv.storage.length * 256 → bv.nbits ≤ p → sbit bv p = false := by
  constructor
  · intro h p _ hp
    exact h p hp
  · intro h p hp
    by_cases hcap : p < bv.storage.length * 256
    · exact h p hcap hp
    · unfold sbit
      rw [laneAt_of_ge bv _ _ (by omega)]
      simp

/-! ## Point mutation: `set` -/
theorem testBit_set_bit (flag : Bool) (x o k : Nat) (ho : o < 64) (hk : k < 64) :
    (set_bit flag x o).testBit k = if k = o then flag else x.testBit k := by
  have hoo : o % 64 = o := by omega
  cases flag
  · rw [set_bit, Nat.testBit_and, testBit_not64, testBit_wshl_one, hoo]
    by_cases h : k = o
    · subst h
      simp [ho]
    · simp [h, hk]
  · rw [set_bit, Nat.testBit_or, testBit_wshl_one, hoo]
    by_cases h : k = o
    · subst h
      simp
    · simp [h]

theorem maxElem_lt : maxElem < 2 ^ 64 :=
  Nat.sub_lt (Nat.pos_pow_of_pos _ (by norm_num)) (by norm_num)

theorem wshl_lt (x s : Nat) : wshl x s < 2 ^ 64 :=
  Nat.mod_lt _ (Nat.pos_pow_of_pos _ (by norm_num))

theorem not64_lt (x : Nat) (hx : x < 2 ^ 64) : not64 x < 2 ^ 64 :=
  Nat.xor_lt_two_pow hx maxElem_lt

theorem set_bit_lt (flag : Bool) (x o : Nat) (hx : x < 2 ^ 64) :
    set_bit flag x o < 2 ^ 64 := by
  cases flag
  · exact Nat.and_lt_two_pow _ (not64_lt _ (wshl_lt 1 o))
  · exact Nat.or_lt_two_pow hx (wshl_lt 1 o)

theorem mem_set_or {α : Type} (l : List α) (i : Nat) (v : α) (x : α)
    (hx : x ∈ l.set i v) : x ∈ l ∨ x = v := by
  induction l generalizing i with
  | nil => simp [List.set] at hx
  | cons a as ih =>
    cases i with
    | zero =>
      rcases List.mem_cons.mp hx with h | h
      · right
        exact h
      · left
        exact List.mem_cons_of_mem _ h
    | succ i =>
      rcases List.mem_cons.mp hx with h | h
      · left
        simp [h]
      · rcases ih i h with h2 | h2
        · left
          exact List.mem_cons_of_mem _ h2
        · right
          exact h2

theorem blockZero_wf : blockZero.length = 4 ∧ ∀ x ∈ blockZero, x < 2 ^ 64 := by
  constructor
  · rfl
  · intro x hx
    rw [List.eq_of_mem_replicate hx]
    exact Nat.pos_pow_of_pos _ (by norm_num)

theorem blockMax_wf : blockMax.length = 4 ∧ ∀ x ∈ blockMax, x < 2 ^ 64 := by
  constructor
  · rfl
  · intro x hx
    rw [List.eq_of_mem_replicate hx]
    exact maxElem_lt

/-- The common tail of `set`: the single-lane write into block
`index / 256`, stated for an arbitrary container `c` that is already large
enough to address `index`. -/
theorem write_spec (c : BitVecSimd) (index : Nat) (flag : Bool)
    (hwf : WF c) (hidx : index < c.nbits) :
    WF (⟨c.storage.set (btlBlock index)
          ((c.storage.getD (btlBlock index) blockZero).set (btlLane index)
            (set_bit flag
              ((c.storage.getD (btlBlock index) blockZero).getD (btlLane index) 0)
              (btlBit index))), c.nbits⟩ : BitVecSimd) ∧
      ∀ p, sbit (⟨c.storage.set (btlBlock index)
          ((c.storage.getD (btlBlock index) blockZero).set (btlLane index)
            (set_bit flag
              ((c.storage.getD (btlBlock index) blockZero).getD (btlLane index) 0)
              (btlBit index))), c.nbits⟩ : BitVecSimd) p =
        if p = index then flag else sbit c p := by
  have harrlen : (c.storage.getD (btlBlock index) blockZero).length = 4 :=
    block_length_of_WF c hwf _
  have hI : btlBlock index < c.storage.length := by
    rw [hwf.1]
    unfold btlBlock
    omega
  have hBlt : btlLane index < 4 := by
    unfold btlLane
    omega
  have hKlt : btlBit index < 64 := by
    unfold btlBit
    omega
  constructor
  · constructor
    · simpa using hwf.1
    · intro b hb
      rcases mem_set_or _ _ _ _ hb with h | h
      · exact hwf.2 b h
      · subst h
        constructor
        · simpa using harrlen
        · intro x hx
          rcases mem_set_or _ _ _ _ hx with h2 | h2
          · rcases getD_mem_or c.storage (btlBlock index) blockZero with hm | hm
            · exact (hwf.2 _ hm).2 _ h2
            · rw [hm] at h2
              exact blockZero_wf.2 _ h2
          · subst h2
            apply set_bit_lt
            exact laneAt_lt_of_WF c hwf _ _
  · intro p
    have hsb : sbit c p = (laneAt c (p / 256) (p % 256 / 64)).testBit (p % 64) := rfl
    show ((List.getD _ (p / 256) blockZero).getD (p % 256 / 64) 0).testBit (p % 64) = _
    rw [getD_set]
    by_cases hpb : btlBlock index = p / 256 ∧ p / 256 < c.storage.length
    · rw [if_pos hpb, getD_set, harrlen]
      by_cases hpl : btlLane index = p % 256 / 64 ∧ p % 256 / 64 < 4
      · rw [if_pos hpl, testBit_set_bit _ _ _ _ hKlt (by omega)]
        by_cases hpk : p % 64 = btlBit index
        · have hpi : p = index := by
            unfold btlBlock at hpb
            unfold btlLane at hpl
            unfold btlBit at hpk
            omega
          rw [if_pos hpk, if_pos hpi]
        · have hne : ¬(p = index) := by
            intro hcon
            subst hcon
            exact hpk rfl
          rw [if_neg hpk, if_neg hne, hsb]
          unfold laneAt
          rw [hpb.1, hpl.1]
      · have hne : ¬(p = index) := by
          intro hcon
          subst hcon
          exact hpl ⟨rfl, by omega⟩
        rw [if_neg hpl, if_neg hne, hsb]
        unfold laneAt
        rw [hpb.1]
    · have hne : ¬(p = index) := by
        intro hcon
        subst hcon
        exact hpb ⟨rfl, hI⟩
      rw [if_neg hpb, if_neg hne, hsb]
      unfold laneAt
      rfl

/-- Full behaviour of `BitVecSimd::set`: well-formedness is preserved, the
length becomes `max nbits (index + 1)`, and exactly the addressed storage
bit changes. -/
theorem set_spec (bv : BitVecSimd) (index : Nat) (flag : Bool) (hwf : WF bv) :
    WF (bv.set index flag) ∧
      (bv.set index flag).nbits = max bv.nbits (index + 1) ∧
      ∀ p, sbit (bv.set index flag) p = if p = index then flag else sbit bv p := by
  have hgs : (grownFor bv index).storage = bv.storage ++ List.replicate
      ((if btlLane (index + 1) > 0 ∨ btlBit (index + 1) > 0 then btlBlock (index + 1) + 1
        else btlBlock (index + 1)) - bv.storage.length) blockZero := rfl
  have hgn : (grownFor bv index).nbits = index + 1 := rfl
  by_cases h : bv.nbits ≤ index
  · have hc : bv.set index flag =
        (⟨(grownFor bv index).storage.set (btlBlock index)
          (((grownFor bv index).storage.getD (btlBlock index) blockZero).set (btlLane index)
            (set_bit flag
              (((grownFor bv index).storage.getD (btlBlock index) blockZero).getD (btlLane index) 0)
              (btlBit index))), (grownFor bv index).nbits⟩ : BitVecSimd) := by
      unfold set grownFor
      rw [if_pos h]
    have hwfc : WF (grownFor bv index) := by
      constructor
      · rw [hgs, hgn, List.length_append, List.length_replicate,
          storage_len_formula, hwf.1]
        omega
      · rw [hgs]
        intro b hb
        rcases List.mem_append.mp hb with h2 | h2
        · exact hwf.2 b h2
        · rw [List.eq_of_mem_replicate h2]
          exact blockZero_wf
    have hsbc : ∀ p, sbit (grownFor bv index) p = sbit bv p := by
      intro p
      unfold sbit laneAt
      rw [hgs, getD_append_default]
    have hres := write_spec (grownFor bv index) index flag hwfc
      (by rw [hgn]; omega)
    rw [hc]
    refine ⟨hres.1, ?_, ?_⟩
    · show (grownFor bv index).nbits = _
      rw [hgn]
      omega
    · intro p
      rw [hres.2 p, hsbc p]
  · have hc : bv.set index flag =
        (⟨bv.storage.set (btlBlock index)
          ((bv.storage.getD (btlBlock index) blockZero).set (btlLane index)
            (set_bit flag
              ((bv.storage.getD (btlBlock index) blockZero).getD (btlLane index) 0)
              (btlBit index))), bv.nbits⟩ : BitVecSimd) := by
      unfold set
      rw [if_neg h]
    have hres := write_spec bv index flag hwf (by omega)
    rw [hc]
    exact ⟨hres.1, by show bv.nbits = _; omega, hres.2⟩

/-! ## `zeros` and `from_slice` -/
theorem zeros_storage (n : Nat) :
    (zeros n).storage = List.replicate ((n + 256 - 1) / 256) blockZero := rfl

theorem zeros_nbits (n : Nat) : (zeros n).nbits = n := rfl

theorem zeros_wf (n : Nat) : WF (zeros n) := by
  constructor
  · rw [zeros_storage, zeros_nbits, List.length_replicate]
  · rw [zeros_storage]
    intro b hb
    rw [List.eq_of_mem_replicate hb]
    exact blockZero_wf

theorem sbit_zeros (n p : Nat) : sbit (zeros n) p = false := by
  unfold sbit laneAt
  rw [zeros_storage]
  have h : (List.replicate ((n + 256 - 1) / 256) blockZero).getD (p / 256) blockZero
      = blockZero := by
    rw [getD_replicate]
    split <;> rfl
  rw [h, getD_blockZero]
  simp

theorem tailZero_zeros (n : Nat) : TailZero (zeros n) := fun p _ => sbit_zeros n p

/-- The combined behaviour of the `for`-loop of `from_slice`: folding
`set(·, true)` over a list of indices. -/
theorem foldl_set_spec (l : List Nat) (bv : BitVecSimd) (hwf : WF bv) :
    WF (l.foldl (fun b i => b.set i true) bv) ∧
      (l.foldl (fun b i => b.set i true) bv).nbits
        = l.foldl (fun n i => max n (i + 1)) bv.nbits ∧
      ∀ p, sbit (l.foldl (fun b i => b.set i true) bv) p
        = (decide (p ∈ l) || sbit bv p) := by
  induction l generalizing bv with
  | nil => simpa using hwf
  | cons a as ih =>
    obtain ⟨hwf2, hn2, hsb2⟩ := set_spec bv a true hwf
    obtain ⟨ihwf, ihn, ihsb⟩ := ih (bv.set a true) hwf2
    refine ⟨by simpa using ihwf, ?_, ?_⟩
    · simp only [List.foldl_cons]
      rw [ihn, hn2]
    · intro p
      simp only [List.foldl_cons]
      rw [ihsb p, hsb2 p]
      by_cases hp : p = a
      · subst hp
        simp
      · simp [hp]

theorem foldl_grow_le (l : List Nat) (m k : Nat) (h : m + 1 ≤ k) :
    l.foldl Nat.max m + 1 ≤ l.foldl (fun n i => max n (i + 1)) k := by
  induction l generalizing m k with
  | nil => simpa using h
  | cons a as ih =>
    simp only [List.foldl_cons]
    exact ih (max m a) (max k (a + 1)) (by omega)

/-! ## Claim theorems: point access and mutation -/
/-- C9: `get(index)` returns `None` (without growing or mutating — it is a
pure read) exactly when `index ≥ nbits` and otherwise `Some` of the stored
bit, while `get_unchecked(index)` panics (modelled as `none`) exactly when
`index ≥ nbits` and otherwise returns the same boolean as `get`. -/
theorem claim_get_vs_get_unchecked (bv : BitVecSimd) (index : Nat) :
    (get bv index = none ↔ bv.nbits ≤ index) ∧
      (get_unchecked bv index = none ↔ bv.nbits ≤ index) ∧
      get_unchecked bv index = get bv index ∧
      (index < bv.nbits → get bv index = some (sbit bv index)) := by
  refine ⟨?_, ?_, get_unchecked_eq_get bv index, ?_⟩
  · rw [get_eq]
    constructor
    · intro h
      by_cases hx : index < bv.nbits
      · rw [if_pos hx] at h
        exact absurd h (by simp)
      · omega
    · intro h
      rw [if_neg (by omega)]
  · rw [get_unchecked_eq_get, get_eq]
    constructor
    · intro h
      by_cases hx : index < bv.nbits
      · rw [if_pos hx] at h
        exact absurd h (by simp)
      · omega
    · intro h
      rw [if_neg (by omega)]
  · intro h
    rw [get_eq, if_pos h]

/-- C5: `set(index, value)` with `index ≥ nbits` grows the vector so that
`nbits = index + 1`, the new storage reading as zero below `index`, then
writes the bit; in particular `zeros(10)` followed by `set(15, true)` yields
`len() == 16`, `get(15) == Some(true)` and `get(14) == Some(false)`. -/
theorem claim_set_growth (bv : BitVecSimd) (index j : Nat) (v : Bool)
    (hinv : Inv bv) (hge : bv.nbits ≤ index) :
    (bv.set index v).nbits = index + 1 ∧
      get (bv.set index v) index = some v ∧
      (j < bv.nbits → get (bv.set index v) j = get bv j) ∧
      (bv.nbits ≤ j → j < index → get (bv.set index v) j = some false) ∧
      ((zeros 10).set 15 true).nbits = 16 ∧
      get ((zeros 10).set 15 true) 15 = some true ∧
      get ((zeros 10).set 15 true) 14 = some false := by
  obtain ⟨hwf, htz⟩ := hinv
  obtain ⟨hwf2, hn2, hsb2⟩ := set_spec bv index v hwf
  have hn : (bv.set index v).nbits = index + 1 := by
    rw [hn2]
    omega
  refine ⟨hn, ?_, ?_, ?_, by decide, by decide, by decide⟩
  · rw [get_eq, hn, if_pos (by omega), hsb2]
    simp
  · intro hj
    rw [get_eq, get_eq, hn, if_pos (by omega), if_pos (by omega), hsb2,
      if_neg (by omega)]
  · intro hj1 hj2
    rw [get_eq, hn, if_pos (by omega), hsb2, if_neg (by omega), htz j hj1]

theorem claim_set_growth_witness :
    Inv (zeros 10) ∧ (zeros 10).nbits ≤ 15 ∧
      (((zeros 10).set 15 true).nbits = 15 + 1 ∧
        get ((zeros 10).set 15 true) 15 = some true ∧
        (5 < (zeros 10).nbits → get ((zeros 10).set 15 true) 5 = get (zeros 10) 5) ∧
        ((zeros 10).nbits ≤ 5 → 5 < 15 → get ((zeros 10).set 15 true) 5 = some false) ∧
        ((zeros 10).set 15 true).nbits = 16 ∧
        get ((zeros 10).set 15 true) 15 = some true ∧
        get ((zeros 10).set 15 true) 14 = some false) :=
  ⟨⟨zeros_wf 10, tailZero_zeros 10⟩, by decide,
    claim_set_growth (zeros 10) 15 5 true ⟨zeros_wf 10, tailZero_zeros 10⟩ (by decide)⟩

/-- C10 (frame effect of `set` in bounds): for a well-formed vector and
`i < len`, `set(i, v)` keeps the length and changes no other readable bit. -/
theorem claim_set_frame (bv : BitVecSimd) (i j : Nat) (v : Bool)
    (hwf : WF bv) (hi : i < bv.nbits) (hj : j < bv.nbits) (hne : j ≠ i) :
    (bv.set i v).nbits = bv.nbits ∧ get (bv.set i v) j = get bv j := by
  obtain ⟨hwf2, hn2, hsb2⟩ := set_spec bv i v hwf
  have hn : (bv.set i v).nbits = bv.nbits := by
    rw [hn2]
    omega
  refine ⟨hn, ?_⟩
  rw [get_eq, get_eq, hn, if_pos hj, if_pos hj, hsb2, if_neg hne]

theorem claim_set_frame_witness :
    WF ((zeros 10).set 3 true) ∧ 5 < ((zeros 10).set 3 true).nbits ∧
      3 < ((zeros 10).set 3 true).nbits ∧ (3 : Nat) ≠ 5 ∧
      ((((zeros 10).set 3 true).set 5 false).nbits = ((zeros 10).set 3 true).nbits ∧
        get (((zeros 10).set 3 true).set 5 false) 3 = get ((zeros 10).set 3 true) 3) :=
  ⟨by decide, by decide, by decide, by decide,
    claim_set_frame ((zeros 10).set 3 true) 5 3 false (by decide) (by decide)
      (by decide) (by decide)⟩

/-- C6: `from_slice(S)` produces a vector in which, for every
`i < max(S) + 1`, position `i` reads as `Some(true)` exactly when `i ∈ S`,
and every position at or beyond the resulting length reads as `None`. -/
theorem claim_from_slice (S : List Nat) (i j : Nat) (hS : S ≠ []) :
    (i < S.foldl Nat.max 0 + 1 → get (from_slice S) i = some (decide (i ∈ S))) ∧
      ((from_slice S).nbits ≤ j → get (from_slice S) j = none) := by
  obtain ⟨hwf, hn, hsb⟩ := foldl_set_spec S (zeros S.length) (zeros_wf _)
  have hfs : from_slice S = S.foldl (fun b i => b.set i true) (zeros S.length) := rfl
  constructor
  · intro hi
    have hbound : S.foldl Nat.max 0 + 1 ≤ (from_slice S).nbits := by
      rw [hfs, hn, zeros_nbits]
      exact foldl_grow_le S 0 S.length (by
        have := List.length_pos.mpr hS
        omega)
    rw [hfs, get_eq, if_pos (by rw [← hfs]; omega)]
    rw [hsb i, sbit_zeros]
    simp
  · intro hj
    rw [hfs, get_eq, if_neg (by rw [← hfs]; omega)]

/-! ## Claim theorems: refuting evaluations on the broken operations -/
/-- C1 (refutation): the tail-zero invariant does *not* hold after every
public operation.  `ones(64)` (on the default 256-bit block) leaves the whole
second lane set because `clear_high_bits(64 - 0)` wraps the shift amount to
`0`; and `or_inplace_mismatched_len` ORs the longer operand's extra bits of
the shared boundary block into `self`'s tail even when both inputs satisfy
the invariants. -/
theorem claim_invariants_broken :
    ((ones 64).nbits = 64 ∧ sbit (ones 64) 64 = true ∧ ¬ TailZero (ones 64)) ∧
      (Inv ((zeros 2).set 0 true) ∧ Inv ((zeros 4).set 3 true) ∧
        (or_inplace_mismatched_len ((zeros 2).set 0 true) ((zeros 4).set 3 true)).nbits = 2 ∧
        sbit (or_inplace_mismatched_len ((zeros 2).set 0 true) ((zeros 4).set 3 true)) 3 = true ∧
        ¬ TailZero (or_inplace_mismatched_len ((zeros 2).set 0 true) ((zeros 4).set 3 true))) := by
  refine ⟨⟨rfl, by decide, ?_⟩,
    ⟨by decide, (tailZero_iff _).mpr (by decide)⟩,
    ⟨by decide, (tailZero_iff _).mpr (by decide)⟩, rfl, by decide, ?_⟩
  · intro h
    have h2 := h 64 (by decide)
    have h3 : sbit (ones 64) 64 = true := by decide
    rw [h3] at h2
    exact absurd h2 (by simp)
  · intro h
    have h2 := h 3 (by decide)
    have h3 : sbit (or_inplace_mismatched_len ((zeros 2).set 0 true)
        ((zeros 4).set 3 true)) 3 = true := by decide
    rw [h3] at h2
    exact absurd h2 (by simp)

/-- C2 (refutation): `ones(64)` has the right length and every in-range
`get` is `Some(true)`, but `count_ones` returns `128`, not `64`, because the
final partial block's tail is *not* cleared when `nbits` is a multiple of
the lane width but not of the block width. -/
theorem claim_ones_count :
    (ones 64).nbits = 64 ∧
      (∀ i, i < 64 → get (ones 64) i = some true) ∧
      count_ones (ones 64) = 128 := by
  refine ⟨rfl, by decide, by decide⟩

/-- C3 (refutation): the persisted-sequence encoding does not round-trip.
For the reachable vector `zeros(256).set(0,true).set(128,true)` (storage
`[[1,0,1,0]]`), the serializer's `take_while(e != 0)` keeps only the prefix
of non-zero lanes of the last block — dropping lane 2 — so decoding reads
bit 128 as unset. -/
theorem claim_serde_roundtrip_broken :
    Inv (((zeros 256).set 0 true).set 128 true) ∧
      get (((zeros 256).set 0 true).set 128 true) 128 = some true ∧
      serializeLanes (((zeros 256).set 0 true).set 128 true).storage = [1] ∧
      get (⟨deserializeBlocks
          (serializeLanes (((zeros 256).set 0 true).set 128 true).storage),
        (((zeros 256).set 0 true).set 128 true).nbits⟩ : BitVecSimd) 128
        = some false := by
  refine ⟨⟨by decide, (tailZero_iff _).mpr (by decide)⟩, by decide, by decide, by decide⟩

theorem claim_from_slice_witness :
    ([0, 5, 9] : List Nat) ≠ [] ∧
      ((5 < ([0, 5, 9] : List Nat).foldl Nat.max 0 + 1 →
          get (from_slice [0, 5, 9]) 5 = some (decide (5 ∈ ([0, 5, 9] : List Nat)))) ∧
        ((from_slice [0, 5, 9]).nbits ≤ 12 → get (from_slice [0, 5, 9]) 12 = none)) :=
  ⟨by decide, claim_from_slice [0, 5, 9] 5 12 (by decide)⟩

/-! ## Set algebra: `and`, `or`, `xor`, `inverse`, `difference` -/
theorem bv_ext (x y : BitVecSimd) (hs : x.storage = y.storage)
    (hn : x.nbits = y.nbits) : x = y := by
  cases x
  cases y
  simp_all

theorem eq_of_getD {α : Type} (l l' : List α) (d : α) (hlen : l.length = l'.length)
    (h : ∀ j, l.getD j d = l'.getD j d) : l = l' := by
  induction l generalizing l' with
  | nil =>
    cases l' with
    | nil => rfl
    | cons b bs => simp at hlen
  | cons a as ih =>
    cases l' with
    | nil => simp at hlen
    | cons b bs =>
      have h0 := h 0
      simp only [List.getD_cons_zero] at h0
      have htl : as = bs := by
        refine ih bs (by simpa using hlen) fun j => ?_
        have := h (j + 1)
        simpa using this
      rw [h0, htl]

theorem inverse_nbits (bv : BitVecSimd) : (inverse bv).nbits = bv.nbits := rfl

theorem inverse_storage (bv : BitVecSimd) :
    (inverse bv).storage =
      if btlLane bv.nbits > 0 ∨ btlBit bv.nbits > 0 then
        (bv.storage.map (fun bk => bk.map not64)).set (btlBlock bv.nbits)
          (zerosFrom (btlLane bv.nbits + 1)
            (((bv.storage.map (fun bk => bk.map not64)).getD (btlBlock bv.nbits)
                blockZero).set (btlLane bv.nbits)
              (clear_high_bits
                (((bv.storage.map (fun bk => bk.map not64)).getD (btlBlock bv.nbits)
                    blockZero).getD (btlLane bv.nbits) 0)
                (64 - btlBit bv.nbits))))
      else bv.storage.map (fun bk => bk.map not64) := rfl

theorem mapped_block_len (bv : BitVecSimd) (hwf : WF bv) :
    ∀ b ∈ bv.storage.map (fun bk => bk.map not64), b.length = 4 := by
  intro b hb
  obtain ⟨a, ha, rfl⟩ := List.mem_map.mp hb
  rw [List.length_map]
  exact (hwf.2 a ha).1

theorem mapped_getD_len (bv : BitVecSimd) (hwf : WF bv) (b : Nat) :
    ((bv.storage.map (fun bk => bk.map not64)).getD b blockZero).length = 4 := by
  rcases getD_mem_or (bv.storage.map (fun bk => bk.map not64)) b blockZero with h | h
  · exact mapped_block_len bv hwf _ h
  · rw [h]
    rfl

theorem inverse_storage_length (bv : BitVecSimd) :
    (inverse bv).storage.length = bv.storage.length := by
  rw [inverse_storage]
  by_cases h : btlLane bv.nbits > 0 ∨ btlBit bv.nbits > 0
  · rw [if_pos h, List.length_set, List.length_map]
  · rw [if_neg h, List.length_map]

theorem inverse_block_len (bv : BitVecSimd) (hwf : WF bv) :
    ∀ b ∈ (inverse bv).storage, b.length = 4 := by
  rw [inverse_storage]
  by_cases h : btlLane bv.nbits > 0 ∨ btlBit bv.nbits > 0
  · rw [if_pos h]
    intro b hb
    rcases mem_set_or _ _ _ _ hb with h2 | h2
    · exact mapped_block_len bv hwf b h2
    · subst h2
      rw [length_zerosFrom, List.length_set]
      exact mapped_getD_len bv hwf _
  · rw [if_neg h]
    exact mapped_block_len bv hwf

theorem laneAt_map_not64 (bv : BitVecSimd) (hwf : WF bv) (b l : Nat)
    (hb : b < bv.storage.length) (hl : l < 4) :
    ((bv.storage.map (fun bk => bk.map not64)).getD b blockZero).getD l 0
      = not64 ((bv.storage.getD b blockZero).getD l 0) := by
  rw [getD_map_block _ _ _ hb]
  exact getD_map_not64 _ _ (by rw [block_length_of_WF bv hwf b]; exact hl)

/-- Below `nbits`, `inverse` flips every storage bit (the boundary-block
masking only touches positions at or above `nbits`). -/
theorem sbit_inverse_below (bv : BitVecSimd) (hwf : WF bv) (p : Nat)
    (hp : p < bv.nbits) : sbit (inverse bv) p = !(sbit bv p) := by
  have hpb : p / 256 < bv.storage.length := by
    rw [hwf.1]
    omega
  have hpl : p % 256 / 64 < 4 := by omega
  have hpk : p % 64 < 64 := by omega
  have hmap : ((bv.storage.map (fun bk => bk.map not64)).getD (p / 256)
        blockZero).getD (p % 256 / 64) 0
      = not64 ((bv.storage.getD (p / 256) blockZero).getD (p % 256 / 64) 0) :=
    laneAt_map_not64 bv hwf _ _ hpb hpl
  have hflip : (not64 ((bv.storage.getD (p / 256) blockZero).getD (p % 256 / 64) 0)).testBit
        (p % 64)
      = !(((bv.storage.getD (p / 256) blockZero).getD (p % 256 / 64) 0).testBit (p % 64)) := by
    rw [testBit_not64]
    simp [hpk]
  unfold sbit laneAt
  rw [inverse_storage]
  by_cases h : btlLane bv.nbits > 0 ∨ btlBit bv.nbits > 0
  · rw [if_pos h, getD_set]
    by_cases hbI : btlBlock bv.nbits = p / 256 ∧
        p / 256 < (bv.storage.map (fun bk => bk.map not64)).length
    · rw [if_pos hbI, getD_zerosFrom, List.length_set, mapped_getD_len bv hwf]
      have hple : p % 256 / 64 ≤ btlLane bv.nbits := by
        have hb1 := hbI.1
        unfold btlBlock at hb1
        unfold btlLane
        omega
      rw [if_neg (by omega), getD_set, mapped_getD_len bv hwf]
      by_cases hll : btlLane bv.nbits = p % 256 / 64 ∧ p % 256 / 64 < 4
      · rw [if_pos hll]
        have hbits : p % 64 < btlBit bv.nbits := by
          have hb1 := hbI.1
          have hl1 := hll.1
          unfold btlBlock at hb1
          unfold btlLane at hl1
          unfold btlBit
          omega
        have hbitpos : 0 < btlBit bv.nbits := by omega
        rw [testBit_clear_high_bits]
        have hcond : (64 - btlBit bv.nbits) % 64 + p % 64 < 64 := by
          unfold btlBit at hbits hbitpos ⊢
          omega
        rw [decide_eq_true hcond, Bool.true_and, hll.1, hbI.1, hmap, hflip]
      · rw [if_neg hll]
        have hlane : btlLane bv.nbits ≠ p % 256 / 64 := by
          intro hcon
          exact hll ⟨hcon, hpl⟩
        rw [hbI.1, hmap, hflip]
    · rw [if_neg hbI, hmap, hflip]
  · rw [if_neg h, hmap, hflip]

theorem zip_block_len (f : Nat → Nat → Nat) (s t : List (List Nat))
    (hs : ∀ b ∈ s, b.length = 4) (ht : ∀ b ∈ t, b.length = 4) :
    ∀ b ∈ List.zipWith (fun x y => List.zipWith f x y) s t, b.length = 4 := by
  induction s generalizing t with
  | nil =>
    intro b hb
    simp at hb
  | cons a as ih =>
    cases t with
    | nil =>
      intro b hb
      simp at hb
    | cons c cs =>
      intro b hb
      rcases List.mem_cons.mp hb with h | h
      · subst h
        rw [List.length_zipWith, hs a (by simp), ht c (by simp)]
        rfl
      · exact ih cs (fun x hx => hs x (List.mem_cons_of_mem _ hx))
          (fun x hx => ht x (List.mem_cons_of_mem _ hx)) b h

theorem lane_zip (f : Nat → Nat → Nat) (hf : f 0 0 = 0) (s t : List (List Nat))
    (hlen : s.length = t.length)
    (hs : ∀ b ∈ s, b.length = 4) (ht : ∀ b ∈ t, b.length = 4) (b l : Nat) :
    ((List.zipWith (fun x y => List.zipWith f x y) s t).getD b blockZero).getD l 0
      = f ((s.getD b blockZero).getD l 0) ((t.getD b blockZero).getD l 0) := by
  have hz : List.zipWith f blockZero blockZero = blockZero := by
    show List.zipWith f (List.replicate 4 0) (List.replicate 4 0) = List.replicate 4 0
    simp [List.replicate, hf]
  rw [getD_zipWith (fun x y => List.zipWith f x y) blockZero s t b hz hlen]
  have hsl : (s.getD b blockZero).length = (t.getD b blockZero).length := by
    rcases getD_mem_or s b blockZero with h1 | h1 <;>
      rcases getD_mem_or t b blockZero with h2 | h2
    · rw [hs _ h1, ht _ h2]
    · rw [hs _ h1, h2]
      rfl
    · rw [h1, ht _ h2]
      rfl
    · rw [h1, h2]
  exact getD_zipWith f 0 _ _ l hf hsl

theorem testBit_ge_64 (x k : Nat) (hx : x < 2 ^ 64) (hk : 64 ≤ k) :
    x.testBit k = false :=
  Nat.testBit_lt_two_pow (lt_of_lt_of_le hx (Nat.pow_le_pow_right (by norm_num) hk))

theorem getD_block_len (s : List (List Nat)) (h4 : ∀ b ∈ s, b.length = 4) (b : Nat) :
    (s.getD b blockZero).length = 4 := by
  rcases getD_mem_or s b blockZero with h | h
  · exact h4 _ h
  · rw [h]
    rfl

theorem getD_lane_ge (blk : List Nat) (hlen : blk.length = 4) (l : Nat) (hl : 4 ≤ l) :
    blk.getD l 0 = 0 := by
  rw [List.getD_eq_getElem?_getD, List.getElem?_eq_none (by omega)]
  rfl

theorem blockAnd_eq : blockAnd = fun x y => List.zipWith (· &&& ·) x y := rfl

theorem blockOr_eq : blockOr = fun x y => List.zipWith (· ||| ·) x y := rfl

theorem blockXor_eq : blockXor = fun x y => List.zipWith (· ^^^ ·) x y := rfl

/-! ## Lane descriptions of the block surgeries used by `resize` -/
theorem testBit_clear_arr (arr : List Nat) (bytes bits l k : Nat) (hlen : arr.length = 4)
    (hl : l < 4) (hk : k < 64) (hbits : bits < 64) :
    ((clear_arr_high_bits arr bytes bits).getD l 0).testBit k
      = (decide (64 * l + k < 64 * bytes + bits) && (arr.getD l 0).testBit k) := by
  unfold clear_arr_high_bits
  by_cases hb : bits > 0
  · rw [if_pos hb, getD_zerosFrom, List.length_set, hlen]
    by_cases hz : bytes + 1 ≤ l ∧ l < 4
    · rw [if_pos hz]
      have hq : ¬(64 * l + k < 64 * bytes + bits) := by omega
      simp [hq]
    · rw [if_neg hz, getD_set, hlen]
      by_cases he : bytes = l ∧ l < 4
      · rw [if_pos he, testBit_clear_high_bits]
        have hcond : decide ((64 - bits) % 64 + k < 64)
            = decide (64 * l + k < 64 * bytes + bits) := by
          apply decide_eq_decide.mpr
          have := he.1
          constructor <;> intro <;> omega
        rw [hcond, he.1]
      · have hq : 64 * l + k < 64 * bytes + bits := by omega
        simp [he, hq]
  · rw [if_neg hb, getD_zerosFrom, hlen]
    by_cases hz : bytes ≤ l ∧ l < 4
    · rw [if_pos hz]
      have hq : ¬(64 * l + k < 64 * bytes + bits) := by omega
      simp [hq]
    · rw [if_neg hz]
      have hq : 64 * l + k < 64 * bytes + bits := by omega
      simp [hq]

theorem testBit_fill_arr (arr : List Nat) (bytes bits bytes_max l k : Nat)
    (hlen : arr.length = 4) (hl : l < 4) (hk : k < 64) (hbits : bits < 64)
    (hbb : 0 < bits → bytes < bytes_max) :
    ((fill_arr_high_bits arr bytes bits bytes_max).getD l 0).testBit k
      = (decide (64 * bytes + bits ≤ 64 * l + k ∧ l < bytes_max)
          || (arr.getD l 0).testBit k) := by
  unfold fill_arr_high_bits
  by_cases hb : bits > 0
  · rw [if_pos hb, getD_fillRange, List.length_set, hlen]
    by_cases hz : bytes + 1 ≤ l ∧ l < bytes_max ∧ l < 4
    · rw [if_pos hz, testBit_maxElem]
      have hq : (64 * bytes + bits ≤ 64 * l + k ∧ l < bytes_max) := by omega
      simp [hq, hk]
    · rw [if_neg hz, getD_set, hlen]
      by_cases he : bytes = l ∧ l < 4
      · rw [if_pos he, Nat.testBit_or, testBit_clear_low_bits, testBit_maxElem]
        have hble : bytes < bytes_max := hbb hb
        have hcond : decide (64 * bytes + bits ≤ 64 * l + k ∧ l < bytes_max)
            = decide (bits % 64 ≤ k) := by
          apply decide_eq_decide.mpr
          have := he.1
          constructor <;> intro <;> omega
        rw [hcond, he.1]
        cases hx : (arr.getD l 0).testBit k <;> simp [hk, hx]
      · have hq : ¬(64 * bytes + bits ≤ 64 * l + k ∧ l < bytes_max) := by omega
        simp [he, hq]
  · rw [if_neg hb, getD_fillRange, hlen]
    by_cases hz : bytes ≤ l ∧ l < bytes_max ∧ l < 4
    · rw [if_pos hz, testBit_maxElem]
      have hq : (64 * bytes + bits ≤ 64 * l + k ∧ l < bytes_max) := by omega
      simp [hq, hk]
    · rw [if_neg hz]
      have hq : ¬(64 * bytes + bits ≤ 64 * l + k ∧ l < bytes_max) := by omega
      simp [hq]

theorem fill_arr_len (arr : List Nat) (bytes bits bytes_max : Nat) :
    (fill_arr_high_bits arr bytes bits bytes_max).length = arr.length := by
  unfold fill_arr_high_bits
  by_cases hb : bits > 0
  · rw [if_pos hb, length_fillRange, List.length_set]
  · rw [if_neg hb, length_fillRange]

theorem clear_arr_len (arr : List Nat) (bytes bits : Nat) :
    (clear_arr_high_bits arr bytes bits).length = arr.length := by
  unfold clear_arr_high_bits
  by_cases hb : bits > 0
  · rw [if_pos hb, length_zerosFrom, List.length_set]
  · rw [if_neg hb, length_zerosFrom]

theorem testBit_fix_arr (arr : List Nat) (ob obi bytes bits l k : Nat)
    (hlen : arr.length = 4) (hl : l < 4) (hk : k < 64) (hobi : obi < 64)
    (hbits : bits < 64) (hmono : 64 * ob + obi ≤ 64 * bytes + bits) :
    ((fix_arr_high_bits arr ob obi bytes bits).getD l 0).testBit k
      = if 64 * l + k < 64 * ob + obi then (arr.getD l 0).testBit k
        else decide (64 * l + k < 64 * bytes + bits) := by
  unfold fix_arr_high_bits
  by_cases hc : ob < bytes
  · rw [if_pos hc]
    rw [testBit_clear_arr _ _ _ _ _ (by rw [fill_arr_len, hlen]) hl hk hbits]
    rw [testBit_fill_arr _ _ _ _ _ _ hlen hl hk hobi (by intro _; split <;> omega)]
    by_cases h1 : 64 * l + k < 64 * ob + obi
    · have hm : ¬(64 * ob + obi ≤ 64 * l + k ∧ l < if bits > 0 then bytes + 1 else bytes) := by
        omega
      have h2 : 64 * l + k < 64 * bytes + bits := by omega
      simp [h1, hm, h2]
    · by_cases h2 : 64 * l + k < 64 * bytes + bits
      · have hm : (64 * ob + obi ≤ 64 * l + k ∧ l < if bits > 0 then bytes + 1 else bytes) := by
          refine ⟨by omega, ?_⟩
          split <;> omega
        simp [h1, hm, h2]
      · simp [h1, h2]
  · rw [if_neg hc]
    by_cases hg : bits > obi
    · rw [if_pos hg]
      rw [testBit_clear_arr _ _ _ _ _ (by rw [List.length_set, hlen]) hl hk hbits]
      rw [getD_set, hlen]
      by_cases he : bytes = l ∧ l < 4
      · rw [if_pos he, Nat.testBit_or, testBit_clear_low_bits, testBit_maxElem]
        have hol : ob = bytes := by omega
        by_cases h1 : 64 * l + k < 64 * ob + obi
        · have hko : ¬(obi % 64 ≤ k) := by
            have := he.1
            omega
          have h2 : 64 * l + k < 64 * bytes + bits := by omega
          have hkb : k < bits := by
            have := he.1
            omega
          simp [h1, h2, hko, hk, he.1, hkb]
        · by_cases h2 : 64 * l + k < 64 * bytes + bits
          · have hko : obi % 64 ≤ k := by
              have := he.1
              omega
            simp [h1, h2, hko, hk, he.1]
          · simp [h1, h2]
      · by_cases h1 : 64 * l + k < 64 * ob + obi
        · have hol : ob = bytes := by omega
          have h2 : 64 * l + k < 64 * bytes + bits := by omega
          simp [he, h1, h2]
        · by_cases h2 : 64 * l + k < 64 * bytes + bits
          · exact absurd ⟨by omega, hl⟩ he
          · simp [he, h1, h2]
    · rw [if_neg hg]
      rw [testBit_clear_arr _ _ _ _ _ hlen hl hk hbits]
      by_cases h1 : 64 * l + k < 64 * ob + obi
      · have h2 : 64 * l + k < 64 * bytes + bits := by omega
        simp [h1, h2]
      · by_cases h2 : 64 * l + k < 64 * bytes + bits
        · exact absurd (by omega : 64 * l + k < 64 * ob + obi) h1
        · simp [h1, h2]

theorem listResize_block_len (s : List (List Nat)) (n : Nat) (v : List Nat)
    (hs : ∀ b ∈ s, b.length = 4) (hv : v.length = 4) :
    ∀ b ∈ listResize s n v, b.length = 4 := by
  intro b hb
  unfold listResize at hb
  by_cases h : n ≤ s.length
  · rw [if_pos h] at hb
    exact hs b ((List.take_sublist n s).subset hb)
  · rw [if_neg h] at hb
    rcases List.mem_append.mp hb with h2 | h2
    · exact hs b h2
    · rw [List.eq_of_mem_replicate h2]
      exact hv

theorem fill_high_block_len4 (s : List (List Nat)) (i bytes bits bytes_max : Nat)
    (h4 : ∀ x ∈ s, x.length = 4) :
    ∀ x ∈ fill_high_block s i bytes bits bytes_max, x.length = 4 := by
  unfold fill_high_block
  by_cases hc : bytes > 0 ∨ bits > 0
  · rw [if_pos hc]
    intro x hx
    rcases mem_set_or _ _ _ _ hx with h | h
    · exact h4 x h
    · rw [h, fill_arr_len]
      exact getD_block_len s h4 i
  · rw [if_neg hc]
    exact h4

theorem fill_high_block_storage_len (s : List (List Nat)) (i bytes bits bytes_max : Nat) :
    (fill_high_block s i bytes bits bytes_max).length = s.length := by
  unfold fill_high_block
  by_cases hc : bytes > 0 ∨ bits > 0
  · rw [if_pos hc, List.length_set]
  · rw [if_neg hc]

/-- Block-level description of the `clear_high_bits` method on the storage. -/
theorem testBit_clear_high_block (s : List (List Nat)) (i bytes bits b l k : Nat)
    (h4 : ∀ x ∈ s, x.length = 4) (hl : l < 4) (hk : k < 64) (hbits : bits < 64) :
    ((((clear_high_block s i bytes bits).getD b blockZero).getD l 0).testBit k)
      = if i = b ∧ b < s.length ∧ (bytes > 0 ∨ bits > 0) then
          (decide (64 * l + k < 64 * bytes + bits)
            && (((s.getD b blockZero).getD l 0).testBit k))
        else ((s.getD b blockZero).getD l 0).testBit k := by
  unfold clear_high_block
  by_cases hc : bytes > 0 ∨ bits > 0
  · rw [if_pos hc, getD_set]
    by_cases hbi : i = b ∧ b < s.length
    · rw [if_pos hbi, if_pos ⟨hbi.1, hbi.2, hc⟩,
        testBit_clear_arr _ _ _ _ _ (getD_block_len s h4 i) hl hk hbits, hbi.1]
    · rw [if_neg hbi, if_neg (by tauto)]
  · rw [if_neg hc, if_neg (by tauto)]

/-- Block-level description of the `fill_high_bits` method on the storage. -/
theorem testBit_fill_high_block (s : List (List Nat)) (i bytes bits bytes_max b l k : Nat)
    (h4 : ∀ x ∈ s, x.length = 4) (hl : l < 4) (hk : k < 64) (hbits : bits < 64)
    (hbb : 0 < bits → bytes < bytes_max) :
    ((((fill_high_block s i bytes bits bytes_max).getD b blockZero).getD l 0).testBit k)
      = if i = b ∧ b < s.length ∧ (bytes > 0 ∨ bits > 0) then
          (decide (64 * bytes + bits ≤ 64 * l + k ∧ l < bytes_max)
            || (((s.getD b blockZero).getD l 0).testBit k))
        else ((s.getD b blockZero).getD l 0).testBit k := by
  unfold fill_high_block
  by_cases hc : bytes > 0 ∨ bits > 0
  · rw [if_pos hc, getD_set]
    by_cases hbi : i = b ∧ b < s.length
    · rw [if_pos hbi, if_pos ⟨hbi.1, hbi.2, hc⟩,
        testBit_fill_arr _ _ _ _ _ _ (getD_block_len s h4 i) hl hk hbits hbb, hbi.1]
    · rw [if_neg hbi, if_neg (by tauto)]
  · rw [if_neg hc, if_neg (by tauto)]

theorem resize_nbits (bv : BitVecSimd) (N : Nat) (v : Bool) :
    (bv.resize N v).nbits = N := rfl

theorem resize_storage (bv : BitVecSimd) (N : Nat) (v : Bool) :
    (bv.resize N v).storage =
      (if N < bv.nbits then
        clear_high_block
          (listResize bv.storage
            (if btlLane N > 0 ∨ btlBit N > 0 then btlBlock N + 1 else btlBlock N)
            (if v then blockMax else blockZero))
          (btlBlock N) (btlLane N) (btlBit N)
      else if v then
        (if btlBlock bv.nbits < btlBlock N then
          clear_high_block
            (fill_high_block
              (listResize bv.storage
                (if btlLane N > 0 ∨ btlBit N > 0 then btlBlock N + 1 else btlBlock N)
                (if v then blockMax else blockZero))
              (btlBlock bv.nbits) (btlLane bv.nbits) (btlBit bv.nbits) 4)
            (btlBlock N) (btlLane N) (btlBit N)
        else if btlLane N > 0 ∨ btlBit N > 0 then
          (listResize bv.storage
              (if btlLane N > 0 ∨ btlBit N > 0 then btlBlock N + 1 else btlBlock N)
              (if v then blockMax else blockZero)).set (btlBlock N)
            (fix_arr_high_bits
              ((listResize bv.storage
                  (if btlLane N > 0 ∨ btlBit N > 0 then btlBlock N + 1 else btlBlock N)
                  (if v then blockMax else blockZero)).getD (btlBlock N) blockZero)
              (btlLane bv.nbits) (btlBit bv.nbits) (btlLane N) (btlBit N))
        else
          listResize bv.storage
            (if btlLane N > 0 ∨ btlBit N > 0 then btlBlock N + 1 else btlBlock N)
            (if v then blockMax else blockZero))
      else
        listResize bv.storage
          (if btlLane N > 0 ∨ btlBit N > 0 then btlBlock N + 1 else btlBlock N)
          (if v then blockMax else blockZero)) := rfl

/-- The storage bit semantics of a growing `resize(N, true)`: bits below the
old length are preserved, bits in `[old, N)` are set, bits at or above `N`
are zero. -/
theorem sbit_resize_true (bv : BitVecSimd) (N p : Nat) (hwf : WF bv)
    (hlt : bv.nbits < N) :
    sbit (bv.resize N true) p = if p < bv.nbits then sbit bv p else decide (p < N) := by
  have hb4 : ∀ x ∈ bv.storage, x.length = 4 := fun x hx => (hwf.2 x hx).1
  have hslen : bv.storage.length = (bv.nbits + 256 - 1) / 256 := hwf.1
  have hL1 : (if btlLane N > 0 ∨ btlBit N > 0 then btlBlock N + 1 else btlBlock N)
      = (N + 256 - 1) / 256 := storage_len_formula N
  have eN1 : btlBlock N = N / 256 := rfl
  have eN2 : btlLane N = N % 256 / 64 := rfl
  have eN3 : btlBit N = N % 64 := rfl
  have e01 : btlBlock bv.nbits = bv.nbits / 256 := rfl
  have e02 : btlLane bv.nbits = bv.nbits % 256 / 64 := rfl
  have e03 : btlBit bv.nbits = bv.nbits % 64 := rfl
  have hpl : p % 256 / 64 < 4 := by omega
  have hpk : p % 64 < 64 := by omega
  have hR4 : ∀ x ∈ listResize bv.storage ((N + 256 - 1) / 256) blockMax, x.length = 4 :=
    listResize_block_len _ _ _ hb4 rfl
  have hRget : ∀ b, (listResize bv.storage ((N + 256 - 1) / 256) blockMax).getD b blockZero
      = if b < (N + 256 - 1) / 256
        then (if b < bv.storage.length then bv.storage.getD b blockZero else blockMax)
        else blockZero := fun b => getD_listResize _ _ _ _ b
  have hRlen : (listResize bv.storage ((N + 256 - 1) / 256) blockMax).length
      = (N + 256 - 1) / 256 := length_listResize _ _ _
  have hbm : (if (true : Bool) = true then blockMax else blockZero) = blockMax := rfl
  unfold sbit laneAt
  rw [resize_storage, hL1, if_neg (by omega), if_pos rfl, hbm]
  by_cases hAB : btlBlock bv.nbits < btlBlock N
  · rw [if_pos hAB]
    rw [testBit_clear_high_block _ _ _ _ _ _ _
      (fill_high_block_len4 _ _ _ _ _ hR4) hpl hpk (by omega)]
    rw [fill_high_block_storage_len, hRlen]
    rw [testBit_fill_high_block _ _ _ _ _ _ _ _ hR4 hpl hpk (by omega) (by intro _; omega)]
    rw [hRlen, hRget (p / 256)]
    by_cases hp0 : p < bv.nbits
    · rw [if_pos hp0, if_neg (by omega)]
      by_cases hpoi : p / 256 = btlBlock bv.nbits
      · rw [if_pos (by omega)]
        have hmask : ¬(64 * btlLane bv.nbits + btlBit bv.nbits
            ≤ 64 * (p % 256 / 64) + p % 64 ∧ p % 256 / 64 < 4) := by omega
        rw [if_pos (by omega), if_pos (by omega)]
        simp [hmask]
      · rw [if_neg (by omega), if_pos (by omega), if_pos (by omega)]
    · rw [if_neg hp0]
      by_cases hpc : p / 256 = btlBlock N
      · by_cases hN0 : N % 256 > 0
        · rw [if_pos (by omega), if_neg (by omega), if_pos (by omega), if_neg (by omega),
            getD_blockMax, if_pos hpl, testBit_maxElem, decide_eq_true hpk, Bool.and_true]
          exact decide_eq_decide.mpr (by omega)
        · rw [if_neg (by omega), if_neg (by omega), if_neg (by omega), getD_blockZero]
          simp
          omega
      · by_cases hpoi : p / 256 = btlBlock bv.nbits
        · rw [if_neg (by omega)]
          by_cases hn0 : bv.nbits % 256 > 0
          · rw [if_pos (by omega)]
            have hmask : (64 * btlLane bv.nbits + btlBit bv.nbits
                ≤ 64 * (p % 256 / 64) + p % 64 ∧ p % 256 / 64 < 4) := by omega
            rw [decide_eq_true hmask, Bool.true_or]
            exact (decide_eq_true (by omega : p < N)).symm
          · rw [if_neg (by omega), if_pos (by omega), if_neg (by omega), getD_blockMax,
              if_pos hpl, testBit_maxElem, decide_eq_true hpk]
            exact (decide_eq_true (by omega : p < N)).symm
        · by_cases hlo : p / 256 < btlBlock bv.nbits
          · omega
          · by_cases hhi : p / 256 < btlBlock N
            · rw [if_neg (by omega), if_neg (by omega), if_pos (by omega),
                if_neg (by omega), getD_blockMax, if_pos hpl, testBit_maxElem, decide_eq_true hpk]
              exact (decide_eq_true (by omega : p < N)).symm
            · rw [if_neg (by omega), if_neg (by omega), if_neg (by omega), getD_blockZero]
              simp
              omega
  · rw [if_neg hAB]
    have hoi : btlBlock bv.nbits = btlBlock N := by omega
    have hN256 : N % 256 > 0 := by omega
    rw [if_pos (by omega), getD_set, hRlen]
    by_cases hpc : btlBlock N = p / 256 ∧ p / 256 < (N + 256 - 1) / 256
    · rw [if_pos hpc]
      rw [testBit_fix_arr _ _ _ _ _ _ _ (getD_block_len _ hR4 _) hpl hpk (by omega)
        (by omega) (by omega)]
      by_cases hq : 64 * (p % 256 / 64) + p % 64 < 64 * btlLane bv.nbits + btlBit bv.nbits
      · rw [if_pos hq, hRget (btlBlock N), if_pos (by omega), if_pos (by omega),
          if_pos (by omega)]
        have hbb : btlBlock N = p / 256 := hpc.1
        rw [hbb]
      · rw [if_neg hq, if_neg (by omega)]
        exact decide_eq_decide.mpr (by omega)
    · rw [if_neg hpc, hRget (p / 256)]
      by_cases hlo : p / 256 < btlBlock N
      · rw [if_pos (by omega), if_pos (by omega), if_pos (by omega)]
      · rw [if_neg (by omega), getD_blockZero, if_neg (by omega)]
        simp
        omega

/-- C4: after `resize(V, N, true)` with `N > len(V)`, the length is `N`,
every position in `[old_length, N)` reads as set, and every position below
`old_length` is unchanged. -/
theorem claim_resize_grow_true (bv : BitVecSimd) (N j : Nat)
    (hinv : Inv bv) (hlt : bv.nbits < N) :
    (bv.resize N true).nbits = N ∧
      (bv.nbits ≤ j → j < N → get (bv.resize N true) j = some true) ∧
      (j < bv.nbits → get (bv.resize N true) j = get bv j) := by
  obtain ⟨hwf, _⟩ := hinv
  refine ⟨resize_nbits bv N true, ?_, ?_⟩
  · intro h1 h2
    rw [get_eq, resize_nbits, if_pos h2, sbit_resize_true bv N j hwf hlt,
      if_neg (by omega)]
    simp [h2]
  · intro h1
    rw [get_eq, get_eq, resize_nbits, if_pos (by omega), if_pos h1,
      sbit_resize_true bv N j hwf hlt, if_pos h1]

/-! ## `leading_zeros` -/
theorem bitLenAux_zero (f : Nat) : bitLenAux f 0 = 0 := by
  cases f with
  | zero => rfl
  | succ f => simp [bitLenAux]

theorem bitLenAux_eq (m : Nat) : ∀ f n, n ≤ f → 2 ^ m ≤ n → n < 2 ^ (m + 1) →
    bitLenAux f n = m + 1 := by
  induction m with
  | zero =>
    intro f n hf h1 h2
    have hn : n = 1 := by
      have e1 : (2 : Nat) ^ 0 = 1 := rfl
      have e2 : (2 : Nat) ^ (0 + 1) = 2 := rfl
      rw [e1] at h1
      rw [e2] at h2
      omega
    subst hn
    cases f with
    | zero => omega
    | succ f => simp [bitLenAux, bitLenAux_zero]
  | succ m ih =>
    intro f n hf h1 h2
    have h2m : (2 : Nat) ^ (m + 1) ≥ 2 := by
      have : (2 : Nat) ^ 1 ≤ 2 ^ (m + 1) := Nat.pow_le_pow_right (by norm_num) (by omega)
      simpa using this
    have hn2 : 2 ≤ n := le_trans h2m h1
    cases f with
    | zero => omega
    | succ f =>
      have hne : ¬(n = 0) := by omega
      rw [bitLenAux, if_neg hne]
      rw [ih f (n / 2) (by omega) ?_ ?_]
      · rw [pow_succ] at h1
        omega
      · rw [pow_succ (2 : Nat) (m + 1)] at h2
        omega

theorem bitLen_eq_of_bounds (yv m : Nat) (h1 : 2 ^ m ≤ yv) (h2 : yv < 2 ^ (m + 1)) :
    bitLen yv = m + 1 :=
  bitLenAux_eq m yv yv (Nat.le_refl yv) h1 h2

theorem dropWhile_append_replicate {α : Type} (pq : α → Bool) (z : α)
    (hz : pq z = true) (m : Nat) (l : List α) :
    (List.replicate m z ++ l).dropWhile pq = l.dropWhile pq := by
  induction m with
  | zero => rfl
  | succ m ih => simp [List.replicate, List.dropWhile_cons, hz, ih]

theorem takeWhile_append_replicate {α : Type} (pq : α → Bool) (z : α)
    (hz : pq z = true) (m : Nat) (x : α) (l : List α) (hx : pq x = false) :
    (List.replicate m z ++ x :: l).takeWhile pq = List.replicate m z := by
  induction m with
  | zero => simp [List.takeWhile_cons, hx]
  | succ m ih => simp [List.replicate, List.takeWhile_cons, hz, ih]

theorem getD_drop {α : Type} (l : List α) (n j : Nat) (d : α) :
    (l.drop n).getD j d = l.getD (n + j) d := by
  induction l generalizing n with
  | nil => simp
  | cons a as ih =>
    cases n with
    | zero => simp
    | succ n =>
      simp only [List.drop]
      rw [ih n]
      have hadd : n + 1 + j = (n + j) + 1 := by omega
      rw [hadd, List.getD_cons_succ]

theorem getElem?_eq_some_getD {α : Type} (l : List α) (n : Nat) (d : α)
    (h : n < l.length) : l[n]? = some (l.getD n d) := by
  rw [List.getElem?_eq_getElem h]
  rw [List.getD_eq_getElem?_getD, List.getElem?_eq_getElem h]
  rfl

/-- The scan of `leading_zeros` once the reversed storage is presented as a
zero prefix followed by a non-zero block. -/
theorem leading_zeros_eq (bv : BitVecSimd) (m : Nat) (X : List Nat)
    (rest : List (List Nat))
    (hrev : bv.storage.reverse = List.replicate m blockZero ++ X :: rest)
    (hX : (X == blockZero) = false) :
    leading_zeros bv =
      (4 * m + (X.reverse.takeWhile (fun yv => yv == 0)).length) * 64
        + lzcnt64 ((X.reverse.dropWhile (fun yv => yv == 0)).headD 0)
        - (if bv.nbits % 256 > 0 then 256 - bv.nbits % 256 else 0) := by
  unfold leading_zeros
  simp only [hrev]
  rw [takeWhile_append_replicate _ _ (by simp) m X rest hX,
    dropWhile_append_replicate _ _ (by simp) m, List.dropWhile_cons,
    if_neg (by simp_all), List.length_replicate]

theorem claim_resize_grow_true_witness :
    Inv ((zeros 3).set 0 true) ∧ ((zeros 3).set 0 true).nbits < 300 ∧
      ((((zeros 3).set 0 true).resize 300 true).nbits = 300 ∧
        (((zeros 3).set 0 true).nbits ≤ 2 → 2 < 300 →
          get (((zeros 3).set 0 true).resize 300 true) 2 = some true) ∧
        (2 < ((zeros 3).set 0 true).nbits →
          get (((zeros 3).set 0 true).resize 300 true) 2 = get ((zeros 3).set 0 true) 2)) :=
  ⟨⟨by decide, (tailZero_iff _).mpr (by decide)⟩, by decide,
    claim_resize_grow_true _ 300 2 ⟨by decide, (tailZero_iff _).mpr (by decide)⟩ (by decide)⟩

/-- C8: `leading_zeros` returns the number of zero positions above the
highest set bit `h` of the logical bit string (block-alignment padding
excluded), i.e. `nbits - 1 - h`; on an all-zero vector it returns `nbits`;
and on a 10-bit vector with (only) bit 3 set it returns 6. -/
theorem claim_leading_zeros (bv : BitVecSimd) (h : Nat) (hinv : Inv bv)
    (hbh : sbit bv h = true)
    (hmax : ∀ j, j < bv.nbits → h < j → sbit bv j = false) :
    leading_zeros bv = bv.nbits - 1 - h ∧
      (∀ w, Inv w → (∀ q, q < w.nbits → sbit w q = false) →
        leading_zeros w = w.nbits) ∧
      leading_zeros ((zeros 10).set 3 true) = 6 := by
  obtain ⟨hwf, htz⟩ := hinv
  refine ⟨?_, ?_, by decide⟩
  · have hh : h < bv.nbits := by
      by_contra hcon
      rw [htz h (by omega)] at hbh
      exact absurd hbh (by simp)
    have hall : ∀ j, h < j → sbit bv j = false := by
      intro j hj
      by_cases hjn : j < bv.nbits
      · exact hmax j hjn hj
      · exact htz j (by omega)
    have hslen : bv.storage.length = (bv.nbits + 256 - 1) / 256 := hwf.1
    have hbhlt : h / 256 < bv.storage.length := by omega
    have hlane0 : ∀ b l', h < 256 * b + 64 * l' → l' < 4 →
        (bv.storage.getD b blockZero).getD l' 0 = 0 := by
      intro b l' hgt hl4
      apply Nat.zero_of_testBit_eq_false
      intro k
      by_cases hk : k < 64
      · have hs := hall (256 * b + 64 * l' + k) (by omega)
        rw [sbit_decomp bv b l' k hl4 hk] at hs
        exact hs
      · exact testBit_ge_64 _ _ (laneAt_lt_of_WF bv hwf b l') (by omega)
    have hzb : ∀ b, h / 256 < b → bv.storage.getD b blockZero = blockZero := by
      intro b hb
      apply eq_of_getD _ _ 0 (by rw [block_length_of_WF bv hwf b]; rfl)
      intro l'
      rw [getD_blockZero]
      by_cases hl4 : l' < 4
      · exact hlane0 b l' (by omega) hl4
      · exact getD_lane_ge _ (block_length_of_WF bv hwf b) _ (by omega)
    have hdrop : bv.storage.drop (h / 256 + 1)
        = List.replicate (bv.storage.length - (h / 256 + 1)) blockZero := by
      apply eq_of_getD _ _ blockZero
      · rw [List.length_drop, List.length_replicate]
      · intro j
        rw [getD_drop, getD_replicate]
        by_cases hj : j < bv.storage.length - (h / 256 + 1)
        · rw [if_pos hj]
          exact hzb _ (by omega)
        · rw [if_neg hj]
          rw [List.getD_eq_getElem?_getD, List.getElem?_eq_none (by omega)]
          rfl
    have htake : bv.storage.take (h / 256 + 1)
        = bv.storage.take (h / 256) ++ [bv.storage.getD (h / 256) blockZero] := by
      rw [List.take_succ, getElem?_eq_some_getD _ _ blockZero hbhlt]
      rfl
    have hrev : bv.storage.reverse
        = List.replicate (bv.storage.length - (h / 256 + 1)) blockZero
          ++ (bv.storage.getD (h / 256) blockZero)
            :: (bv.storage.take (h / 256)).reverse := by
      conv_lhs => rw [← List.take_append_drop (h / 256 + 1) bv.storage]
      rw [List.reverse_append, hdrop, List.reverse_replicate, htake,
        List.reverse_append]
      rfl
    have hXlen : (bv.storage.getD (h / 256) blockZero).length = 4 :=
      block_length_of_WF bv hwf _
    have hXne : bv.storage.getD (h / 256) blockZero ≠ blockZero := by
      intro hcon
      have hs := hbh
      unfold sbit laneAt at hs
      rw [hcon, getD_blockZero] at hs
      simp at hs
    have hyTB : ((bv.storage.getD (h / 256) blockZero).getD (h % 256 / 64) 0).testBit
        (h % 64) = true := by
      have hs := hbh
      unfold sbit laneAt at hs
      exact hs
    have hyUB : ∀ j, h % 64 < j →
        ((bv.storage.getD (h / 256) blockZero).getD (h % 256 / 64) 0).testBit j
          = false := by
      intro j hj
      by_cases hj64 : j < 64
      · have hs := hall (256 * (h / 256) + 64 * (h % 256 / 64) + j) (by omega)
        rw [sbit_decomp bv (h / 256) (h % 256 / 64) j (by omega) hj64] at hs
        exact hs
      · exact testBit_ge_64 _ _ (laneAt_lt_of_WF bv hwf _ _) (by omega)
    have hy0 : (bv.storage.getD (h / 256) blockZero).getD (h % 256 / 64) 0 ≠ 0 := by
      intro hcon
      rw [hcon] at hyTB
      simp at hyTB
    have hXdrop : (bv.storage.getD (h / 256) blockZero).drop (h % 256 / 64 + 1)
        = List.replicate (3 - h % 256 / 64) 0 := by
      apply eq_of_getD _ _ 0
      · rw [List.length_drop, List.length_replicate, hXlen]
        omega
      · intro j
        rw [getD_drop, getD_replicate]
        by_cases hj : j < 3 - h % 256 / 64
        · rw [if_pos hj]
          exact hlane0 (h / 256) _ (by omega) (by omega)
        · rw [if_neg hj]
          rw [List.getD_eq_getElem?_getD, List.getElem?_eq_none (by rw [hXlen]; omega)]
          rfl
    have hXtake : (bv.storage.getD (h / 256) blockZero).take (h % 256 / 64 + 1)
        = (bv.storage.getD (h / 256) blockZero).take (h % 256 / 64)
          ++ [(bv.storage.getD (h / 256) blockZero).getD (h % 256 / 64) 0] := by
      rw [List.take_succ, getElem?_eq_some_getD _ _ 0 (by rw [hXlen]; omega)]
      rfl
    have hXrev : (bv.storage.getD (h / 256) blockZero).reverse
        = List.replicate (3 - h % 256 / 64) 0
          ++ ((bv.storage.getD (h / 256) blockZero).getD (h % 256 / 64) 0)
            :: ((bv.storage.getD (h / 256) blockZero).take (h % 256 / 64)).reverse := by
      conv_lhs =>
        rw [← List.take_append_drop (h % 256 / 64 + 1)
          (bv.storage.getD (h / 256) blockZero)]
      rw [List.reverse_append, hXdrop, List.reverse_replicate, hXtake,
        List.reverse_append]
      rfl
    rw [leading_zeros_eq bv _ _ _ hrev (beq_eq_false_iff_ne.mpr hXne)]
    rw [hXrev, takeWhile_append_replicate (fun yv => yv == 0) 0 (by simp)
        (3 - h % 256 / 64) _ _ (by exact beq_eq_false_iff_ne.mpr hy0),
      dropWhile_append_replicate (fun yv => yv == 0) 0 (by simp)
        (3 - h % 256 / 64), List.dropWhile_cons,
      if_neg (by simp only [beq_iff_eq]; exact hy0), List.length_replicate,
      List.headD_cons]
    have hbl : bitLen ((bv.storage.getD (h / 256) blockZero).getD (h % 256 / 64) 0)
        = h % 64 + 1 :=
      bitLen_eq_of_bounds _ _ (Nat.testBit_implies_ge hyTB)
        (Nat.lt_pow_two_of_testBit _ fun i hi => hyUB i (by omega))
    rw [lzcnt64, hbl]
    by_cases hmod : bv.nbits % 256 > 0
    · rw [if_pos hmod]
      omega
    · rw [if_neg hmod]
      omega
  · intro w hw hz
    obtain ⟨hwf, htz⟩ := hw
    have hall : ∀ q, sbit w q = false := by
      intro q
      by_cases hq : q < w.nbits
      · exact hz q hq
      · exact htz q (by omega)
    have hrepl : w.storage = List.replicate w.storage.length blockZero := by
      apply eq_of_getD _ _ blockZero (by rw [List.length_replicate])
      intro j
      rw [getD_replicate]
      by_cases hj : j < w.storage.length
      · rw [if_pos hj]
        apply eq_of_getD _ _ 0 (by rw [block_length_of_WF w hwf j]; rfl)
        intro l'
        rw [getD_blockZero]
        by_cases hl4 : l' < 4
        · apply Nat.zero_of_testBit_eq_false
          intro k
          by_cases hk : k < 64
          · have hs := hall (256 * j + 64 * l' + k)
            rw [sbit_decomp w j l' k hl4 hk] at hs
            exact hs
          · exact testBit_ge_64 _ _ (laneAt_lt_of_WF w hwf j l') (by omega)
        · exact getD_lane_ge _ (block_length_of_WF w hwf j) _ (by omega)
      · rw [if_neg hj]
        rw [List.getD_eq_getElem?_getD, List.getElem?_eq_none (by omega)]
        rfl
    obtain ⟨m, hm⟩ : ∃ m, w.storage.length = m := ⟨_, rfl⟩
    rw [hm] at hrepl
    have hdw : (List.replicate m blockZero).dropWhile
        (fun x => x == blockZero) = [] := by
      have hd := dropWhile_append_replicate (fun x : List Nat => x == blockZero)
        blockZero (by simp) m []
      rw [List.append_nil] at hd
      exact hd
    unfold leading_zeros
    simp only [hrepl, List.reverse_replicate, hdw]

theorem claim_leading_zeros_witness :
    Inv ((zeros 10).set 3 true) ∧ sbit ((zeros 10).set 3 true) 3 = true ∧
      (∀ j, j < ((zeros 10).set 3 true).nbits → 3 < j →
        sbit ((zeros 10).set 3 true) j = false) ∧
      (leading_zeros ((zeros 10).set 3 true) = ((zeros 10).set 3 true).nbits - 1 - 3 ∧
        (∀ w, Inv w → (∀ q, q < w.nbits → sbit w q = false) →
          leading_zeros w = w.nbits) ∧
        leading_zeros ((zeros 10).set 3 true) = 6) :=
  ⟨⟨by decide, (tailZero_iff _).mpr (by decide)⟩, by decide, by decide,
    claim_leading_zeros ((zeros 10).set 3 true) 3
      ⟨by decide, (tailZero_iff _).mpr (by decide)⟩ (by decide) (by decide)⟩

/-- C7: for equal-length vectors satisfying the invariants,
`difference(A,B) OR difference(B,A)` is (structurally, as the `PartialEq`
implementation compares) equal to `XOR(A,B)`, where `difference` is `A AND
(NOT B)`. -/
theorem claim_difference_or_eq_xor (A B : BitVecSimd)
    (hA : Inv A) (hB : Inv B) (hn : A.nbits = B.nbits) :
    (A.difference B).or (B.difference A) = A.xor B := by
  obtain ⟨hwfA, htzA⟩ := hA
  obtain ⟨hwfB, htzB⟩ := hB
  have hlen : A.storage.length = B.storage.length := by
    rw [hwfA.1, hwfB.1, hn]
  have hA4 : ∀ b ∈ A.storage, b.length = 4 := fun b hb => (hwfA.2 b hb).1
  have hB4 : ∀ b ∈ B.storage, b.length = 4 := fun b hb => (hwfB.2 b hb).1
  have hiA4 := inverse_block_len A hwfA
  have hiB4 := inverse_block_len B hwfB
  have hilenA := inverse_storage_length A
  have hilenB := inverse_storage_length B
  have hd1 : (A.difference B).storage
      = List.zipWith (fun x y => List.zipWith (· &&& ·) x y) A.storage
          (inverse B).storage := by
    rw [show (A.difference B).storage = List.zipWith blockAnd A.storage (inverse B).storage
      from rfl, blockAnd_eq]
  have hd2 : (B.difference A).storage
      = List.zipWith (fun x y => List.zipWith (· &&& ·) x y) B.storage
          (inverse A).storage := by
    rw [show (B.difference A).storage = List.zipWith blockAnd B.storage (inverse A).storage
      from rfl, blockAnd_eq]
  have hd14 := zip_block_len (· &&& ·) A.storage (inverse B).storage hA4 hiB4
  have hd24 := zip_block_len (· &&& ·) B.storage (inverse A).storage hB4 hiA4
  have hd1len : (A.difference B).storage.length = A.storage.length := by
    rw [hd1, List.length_zipWith]
    omega
  have hd2len : (B.difference A).storage.length = A.storage.length := by
    rw [hd2, List.length_zipWith]
    omega
  have hLs : ((A.difference B).or (B.difference A)).storage
      = List.zipWith (fun x y => List.zipWith (· ||| ·) x y) (A.difference B).storage
          (B.difference A).storage := by
    rw [show ((A.difference B).or (B.difference A)).storage
      = List.zipWith blockOr (A.difference B).storage (B.difference A).storage from rfl,
      blockOr_eq]
  have hRs : (A.xor B).storage
      = List.zipWith (fun x y => List.zipWith (· ^^^ ·) x y) A.storage B.storage := by
    rw [show (A.xor B).storage = List.zipWith blockXor A.storage B.storage from rfl,
      blockXor_eq]
  have hL4 : ∀ b ∈ ((A.difference B).or (B.difference A)).storage, b.length = 4 := by
    rw [hLs]
    intro b hb
    refine zip_block_len (· ||| ·) _ _ ?_ ?_ b hb
    · rw [hd1]
      exact hd14
    · rw [hd2]
      exact hd24
  have hR4 : ∀ b ∈ (A.xor B).storage, b.length = 4 := by
    rw [hRs]
    exact zip_block_len (· ^^^ ·) _ _ hA4 hB4
  -- pointwise lane description of the left-hand side
  have hlaneL : ∀ b l,
      ((((A.difference B).or (B.difference A)).storage.getD b blockZero).getD l 0)
        = (((A.storage.getD b blockZero).getD l 0) &&&
            (((inverse B).storage.getD b blockZero).getD l 0)) |||
          (((B.storage.getD b blockZero).getD l 0) &&&
            (((inverse A).storage.getD b blockZero).getD l 0)) := by
    intro b l
    rw [hLs, lane_zip (· ||| ·) (by simp) _ _ (by omega) (by rw [hd1]; exact hd14)
      (by rw [hd2]; exact hd24) b l]
    rw [hd1, lane_zip (· &&& ·) (by simp) _ _ (by omega) hA4 hiB4 b l]
    rw [hd2, lane_zip (· &&& ·) (by simp) _ _ (by omega) hB4 hiA4 b l]
  have hlaneR : ∀ b l,
      (((A.xor B).storage.getD b blockZero).getD l 0)
        = ((A.storage.getD b blockZero).getD l 0) ^^^
            ((B.storage.getD b blockZero).getD l 0) := by
    intro b l
    rw [hRs, lane_zip (· ^^^ ·) (by simp) _ _ hlen hA4 hB4 b l]
  apply bv_ext
  · apply eq_of_getD _ _ blockZero
    · rw [hLs, hRs, List.length_zipWith, List.length_zipWith]
      omega
    · intro b
      apply eq_of_getD _ _ 0
      · rw [getD_block_len _ hL4, getD_block_len _ hR4]
      · intro l
        apply Nat.eq_of_testBit_eq
        intro k
        rw [hlaneL b l, hlaneR b l, Nat.testBit_or, Nat.testBit_and, Nat.testBit_and,
          Nat.testBit_xor]
        by_cases hk : k < 64
        · by_cases hl : l < 4
          · have hdA : sbit A (256 * b + 64 * l + k)
                = ((A.storage.getD b blockZero).getD l 0).testBit k :=
              sbit_decomp A b l k hl hk
            have hdB : sbit B (256 * b + 64 * l + k)
                = ((B.storage.getD b blockZero).getD l 0).testBit k :=
              sbit_decomp B b l k hl hk
            have hdiA : sbit (inverse A) (256 * b + 64 * l + k)
                = (((inverse A).storage.getD b blockZero).getD l 0).testBit k :=
              sbit_decomp (inverse A) b l k hl hk
            have hdiB : sbit (inverse B) (256 * b + 64 * l + k)
                = (((inverse B).storage.getD b blockZero).getD l 0).testBit k :=
              sbit_decomp (inverse B) b l k hl hk
            rw [← hdA, ← hdB, ← hdiA, ← hdiB]
            by_cases hp : 256 * b + 64 * l + k < A.nbits
            · rw [sbit_inverse_below A hwfA _ hp,
                sbit_inverse_below B hwfB _ (by omega)]
              cases hva : sbit A (256 * b + 64 * l + k) <;>
                cases hvb : sbit B (256 * b + 64 * l + k) <;> rfl
            · rw [htzA _ (by omega), htzB _ (by omega)]
              rfl
          · rw [getD_lane_ge _ (getD_block_len _ hA4 b) l (by omega),
              getD_lane_ge _ (getD_block_len _ hB4 b) l (by omega)]
            simp
        · have hba := testBit_ge_64 _ k (laneAt_lt_of_WF A hwfA b l) (by omega)
          have hbb := testBit_ge_64 _ k (laneAt_lt_of_WF B hwfB b l) (by omega)
          unfold laneAt at hba hbb
          rw [hba, hbb]
          simp
  · rfl

theorem claim_difference_or_eq_xor_witness :
    Inv (((zeros 4).set 0 true).set 2 true) ∧ Inv (((zeros 4).set 0 true).set 1 true) ∧
      (((zeros 4).set 0 true).set 2 true).nbits = (((zeros 4).set 0 true).set 1 true).nbits ∧
      ((((zeros 4).set 0 true).set 2 true).difference (((zeros 4).set 0 true).set 1 true)).or
          ((((zeros 4).set 0 true).set 1 true).difference (((zeros 4).set 0 true).set 2 true))
        = (((zeros 4).set 0 true).set 2 true).xor (((zeros 4).set 0 true).set 1 true) :=
  ⟨⟨by decide, (tailZero_iff _).mpr (by decide)⟩,
    ⟨by decide, (tailZero_iff _).mpr (by decide)⟩, rfl,
    claim_difference_or_eq_xor _ _
      ⟨by decide, (tailZero_iff _).mpr (by decide)⟩
      ⟨by decide, (tailZero_iff _).mpr (by decide)⟩ rfl⟩

end BitVecSimd
